import Mathlib

/-!
Verification development for the ScoopUI package-inventory engine
(`src/main.py`).  Strings are modelled as `List Char`; Python's `None` is
modelled with `Option`; a Python exception escaping a modelled function is
modelled by the function returning `none` (an `Option`-valued result).
List indexing (`parts[i]`) is modelled with `List.get?` inside the `Option`
monad, so that an out-of-range access shows up as failure rather than
being silently defined away.  Unicode-only behaviour (non-ASCII word
characters in `\w`, non-ASCII case mapping) is not modelled; all inputs of
interest are ASCII.
-/

namespace ScoopUI

abbrev Str := List Char

/-- Coerce a Lean string literal to the `List Char` representation. -/
def str (s : String) : Str := s.data

/-- Python `str` whitespace (ASCII part), as used by `strip` and `split`. -/
def isPySpace (c : Char) : Bool :=
  c = ' ' || c = '\t' || c = '\n' || c = '\r' || c = '\x0b' || c = '\x0c'

/-- Python `s.strip()`: drop whitespace from both ends. -/
def pyStrip (l : Str) : Str :=
  ((l.dropWhile isPySpace).reverse.dropWhile isPySpace).reverse

/-- Python `s.split('\n')`: split on each newline, keeping empty pieces. -/
def splitNL : Str → List Str
  | [] => [[]]
  | c :: cs =>
    if c = '\n' then [] :: splitNL cs
    else
      match splitNL cs with
      | [] => [[c]]
      | t :: ts => (c :: t) :: ts

/-- Worker for `splitWS`, structurally recursive on a fuel argument.  Each
step consumes at least one character, so fuel equal to the input length is
always enough and the fuel-exhausted case is reached only on the empty
remainder (where it agrees with the main branch). -/
def splitWSGo : Nat → Str → List Str
  | 0, _ => []
  | fuel + 1, l =>
    match l.dropWhile isPySpace with
    | [] => []
    | c :: cs =>
      ((c :: cs).takeWhile (fun d => !isPySpace d)) ::
        splitWSGo fuel ((c :: cs).dropWhile (fun d => !isPySpace d))

/-- Python `s.split()`: split on runs of whitespace, discarding empties. -/
def splitWS (l : Str) : List Str := splitWSGo l.length l

/-- Python `s.split(None, n)`: at most `n` splits; the remainder after the
last split keeps its internal and trailing whitespace verbatim. -/
def splitWSMax (n : Nat) (l : Str) : List Str :=
  match n with
  | 0 =>
    match l.dropWhile isPySpace with
    | [] => []
    | r => [r]
  | n + 1 =>
    match l.dropWhile isPySpace with
    | [] => []
    | c :: cs =>
      ((c :: cs).takeWhile (fun d => !isPySpace d)) ::
        splitWSMax n ((c :: cs).dropWhile (fun d => !isPySpace d))

/-- `pat` is a leading segment of `l` (Python `startswith`). -/
def startsWithL : Str → Str → Bool
  | [], _ => true
  | _ :: _, [] => false
  | a :: as, b :: bs => a = b && startsWithL as bs

/-- Python `pat in l` substring containment. -/
def containsSub (pat : Str) : Str → Bool
  | [] => startsWithL pat []
  | l@(_ :: rest) => startsWithL pat l || containsSub pat rest

/-- Python `s.lower()` (ASCII case mapping). -/
def lowerStr (l : Str) : Str := l.map Char.toLower

/-! ## `remove_ansi_codes` (src/main.py lines 22-27)

The pattern is ESC followed by either one character of the class written
`[@-Z\\-_]` (which covers 0x40 to 0x5A and 0x5C to 0x5F), or a CSI
sequence: `[`, then parameter bytes 0x30 to 0x3F, then intermediate bytes
0x20 to 0x2F, then one final byte 0x40 to 0x7E.  All three CSI classes are
pairwise disjoint, so the greedy match is deterministic. -/

/-- Single-character escape class (0x40 to 0x5A, 0x5C to 0x5F) of the ANSI
regex. -/
def isEscSingle (c : Char) : Bool :=
  (0x40 ≤ c.toNat && c.toNat ≤ 0x5A) || (0x5C ≤ c.toNat && c.toNat ≤ 0x5F)

/-- CSI parameter byte (0x30 to 0x3F). -/
def isCsiParam (c : Char) : Bool := 0x30 ≤ c.toNat && c.toNat ≤ 0x3F

/-- CSI intermediate byte (0x20 to 0x2F). -/
def isCsiInter (c : Char) : Bool := 0x20 ≤ c.toNat && c.toNat ≤ 0x2F

/-- CSI final byte (0x40 to 0x7E). -/
def isCsiFinal (c : Char) : Bool := 0x40 ≤ c.toNat && c.toNat ≤ 0x7E

/-- Try to match the body of the ANSI pattern (everything after the ESC);
on success return the remaining input after the match. -/
def matchAnsiAfterEsc : Str → Option Str
  | [] => none
  | c :: rest =>
    if isEscSingle c then some rest
    else if c = '[' then
      let rest1 := rest.dropWhile isCsiParam
      let rest2 := rest1.dropWhile isCsiInter
      match rest2 with
      | [] => none
      | f :: rest3 => if isCsiFinal f then some rest3 else none
    else none

theorem matchAnsiAfterEsc_length {l r : Str} (h : matchAnsiAfterEsc l = some r) :
    r.length < l.length := by
  match l with
  | [] => simp [matchAnsiAfterEsc] at h
  | c :: rest =>
    simp only [matchAnsiAfterEsc] at h
    have h1 : (rest.dropWhile isCsiParam).length ≤ rest.length :=
      (List.dropWhile_sublist _).length_le
    have h2 : ((rest.dropWhile isCsiParam).dropWhile isCsiInter).length ≤
        (rest.dropWhile isCsiParam).length :=
      (List.dropWhile_sublist _).length_le
    split at h
    · cases h
      simp
    · split at h
      · split at h
        · cases h
        · rename_i f rest3 heq
          split at h
          · have h4 : rest3.length = r.length := by
              have h5 : rest3 = r := by injection h
              rw [h5]
            have h3 : ((rest.dropWhile isCsiParam).dropWhile isCsiInter).length =
                rest3.length + 1 := by
              rw [heq]; simp
            simp only [List.length_cons]
            omega
          · cases h
      · cases h

/-- Worker for `removeAnsiStr`, structurally recursive on a fuel argument.
By `matchAnsiAfterEsc_length` each step consumes at least one character,
so fuel equal to the input length is always enough and the fuel-exhausted
case is reached only on the empty remainder. -/
def removeAnsiGo : Nat → Str → Str
  | 0, l => l
  | fuel + 1, l =>
    match l with
    | [] => []
    | c :: rest =>
      if c = '\x1b' then
        match matchAnsiAfterEsc rest with
        | some rest' => removeAnsiGo fuel rest'
        | none => c :: removeAnsiGo fuel rest
      else c :: removeAnsiGo fuel rest

/-- `re.sub` of the ANSI pattern with `''`: scan left to right, removing
each non-overlapping match (a match can only start at an ESC). -/
def removeAnsiStr (l : Str) : Str := removeAnsiGo l.length l

/-- `remove_ansi_codes` (src/main.py lines 22-27): `None` maps to the empty
string, otherwise the ANSI pattern is removed. -/
def remove_ansi_codes : Option Str → Str
  | none => []
  | some s => removeAnsiStr s

/-! ## The two `re.search` patterns of `parse_scoop_updates_info`

`scoop_update_re = "Scoop can be updated from version ([\w.-]+) to ([\w.-]+)\."`
`app_update_info_re = "Update available:\s*([\w.+-]+)"`

`re.search` tries to match at each position, left to right.  Both groups
are greedy runs over classes disjoint from the character that must follow
them, except for the final literal `.` of the first pattern, which (being
itself in the class `[\w.-]`) makes the second group backtrack to the last
dot of the greedy run. -/

/-- Character class `[\w.-]` (ASCII word chars, dot, hyphen). -/
def isVerChar (c : Char) : Bool := c.isAlphanum || c = '_' || c = '.' || c = '-'

/-- Character class `[\w.+-]`. -/
def isVer2Char (c : Char) : Bool :=
  c.isAlphanum || c = '_' || c = '.' || c = '+' || c = '-'

/-- Index of the last occurrence of `c` in `l`. -/
def lastIdxOf (c : Char) (l : Str) : Option Nat :=
  match l.reverse.findIdx? (· = c) with
  | some j => some (l.length - 1 - j)
  | none => none

/-- Match `scoop_update_re` anchored at the start of `l`; on success return
the two captured groups. -/
def matchScoopUpd (l : Str) : Option (Str × Str) :=
  let lit := str "Scoop can be updated from version "
  if startsWithL lit l then
    let rest := l.drop lit.length
    let g1 := rest.takeWhile isVerChar
    let rest1 := rest.dropWhile isVerChar
    if g1 ≠ [] && startsWithL (str " to ") rest1 then
      let rest2 := rest1.drop 4
      let g2run := rest2.takeWhile isVerChar
      match lastIdxOf '.' g2run with
      | some p => if 1 ≤ p then some (g1, g2run.take p) else none
      | none => none
    else none
  else none

/-- `scoop_update_re.search`: leftmost match wins. -/
def searchScoopUpd (l : Str) : Option (Str × Str) :=
  match l with
  | [] => none
  | _ :: cs =>
    match matchScoopUpd l with
    | some g => some g
    | none => searchScoopUpd cs

/-- Match `app_update_info_re` anchored at the start of `l`; on success
return the captured group. -/
def matchUpdAvail (l : Str) : Option Str :=
  let lit := str "Update available:"
  if startsWithL lit l then
    let rest := (l.drop lit.length).dropWhile isPySpace
    let g := rest.takeWhile isVer2Char
    if g ≠ [] then some g else none
  else none

/-- `app_update_info_re.search`: leftmost match wins. -/
def searchUpdAvail (l : Str) : Option Str :=
  match l with
  | [] => none
  | _ :: cs =>
    match matchUpdAvail l with
    | some g => some g
    | none => searchUpdAvail cs

/-! ## `get_scoop_command_output` (src/main.py lines 30-58) -/

/-- The `(stdout, stderr, returncode)` triple returned by
`get_scoop_command_output`; `stdout` is `None` on every exception path. -/
structure CmdOutcome where
  stdout : Option Str
  stderr : Str
  code : Int
deriving DecidableEq

/-- What the operating system / subprocess layer does when the tool is
launched: the input of `get_scoop_command_output`. -/
inductive ProcResult where
  | fileNotFound
  | timedOut
  | otherError (msg : Str)
  | completed (stdout stderr : Str) (code : Int)
deriving DecidableEq

/-- `get_scoop_command_output` (src/main.py lines 30-58): every exception
path is caught and turned into a `(None, message, -1)` triple; a process
that runs to completion yields its streams and exit code unchanged. -/
def get_scoop_command_output : ProcResult → CmdOutcome
  | .fileNotFound => ⟨none, str "Scoop command not found.", -1⟩
  | .timedOut => ⟨none, str "Command timed out.", -1⟩
  | .otherError m => ⟨none, str "An unexpected error occurred: " ++ m, -1⟩
  | .completed out err c => ⟨some out, err, c⟩

/-! ## `parse_scoop_search_results` (src/main.py lines 441-466) -/

structure SearchRec where
  name : Str
  version : Str
  source : Str
deriving DecidableEq

/-- src/main.py lines 458-465: tokenize a search data row.  Returns the
record to append, `none` when no record is emitted (fewer than 2 tokens,
or the name is the manager's own identifier). -/
def searchRow (parts : List Str) : Option (Option SearchRec) :=
  if 2 ≤ parts.length then do
    let name ← parts.get? 0
    let version ← parts.get? 1
    let source ← if 2 < parts.length then parts.get? 2 else pure (str "N/A")
    pure (if lowerStr name ≠ str "scoop" then some ⟨name, version, source⟩ else none)
  else pure none

/-- One loop iteration of `parse_scoop_search_results`; the state is
`(data_started, results)`.  `none` models an uncaught exception. -/
def searchStep (st : Bool × List SearchRec) (rawLine : Str) :
    Option (Bool × List SearchRec) :=
  let line := pyStrip (removeAnsiStr rawLine)
  if line = [] then some st
  else if containsSub (str "----") line && !containsSub (str "Name") line then
    some (true, st.2)
  else if !st.1 || (containsSub (str "Name ") line && containsSub (str "Version ") line) then
    some st
  else do
    let r ← searchRow (splitWS line)
    pure (st.1, st.2 ++ r.toList)

/-- `parse_scoop_search_results` (src/main.py lines 441-466).  A `None`
argument raises (`None.strip()` has no meaning), modelled as `none`. -/
def parse_scoop_search_results : Option Str → Option (List SearchRec)
  | none => none
  | some s =>
    (List.foldlM searchStep (false, []) (splitNL (pyStrip s))).map Prod.snd

/-! ## `parse_scoop_list_apps` (src/main.py lines 468-507) -/

structure ListRec where
  name : Str
  version : Str
  source : Str
  info : Str
deriving DecidableEq

/-- src/main.py lines 500-506: tokenize a list data row (split with at
most 3 splits).  Returns the record to append, `none` when the row has
fewer than 2 tokens. -/
def listRow (parts : List Str) : Option (Option ListRec) :=
  if 2 ≤ parts.length then do
    let name ← parts.get? 0
    let version ← parts.get? 1
    let source ← if 3 ≤ parts.length then parts.get? 2 else pure (str "N/A")
    let info ← if 4 ≤ parts.length then parts.get? 3 else pure ([] : Str)
    pure (some ⟨name, version, source, pyStrip info⟩)
  else pure none

/-- One loop iteration of `parse_scoop_list_apps`; the state is
`(data_started, header_skipped, installed_apps)`. -/
def listStep (st : Bool × Bool × List ListRec) (rawLine : Str) :
    Option (Bool × Bool × List ListRec) :=
  let line := pyStrip (removeAnsiStr rawLine)
  if line = [] then some st
  else if containsSub (str "----") line && !containsSub (str "Name") line then
    some (true, false, st.2.2)
  else if !st.1 then some st
  else if !st.2.1 && (containsSub (str "Name ") line && containsSub (str "Version ") line) then
    some (st.1, true, st.2.2)
  else do
    let r ← listRow (splitWSMax 3 line)
    pure (st.1, st.2.1, st.2.2 ++ r.toList)

/-- `parse_scoop_list_apps` (src/main.py lines 468-507).  A falsy argument
(`None` or the empty string) returns the empty list via the early guard. -/
def parse_scoop_list_apps (listOutput : Option Str) : Option (List ListRec) :=
  match listOutput with
  | none => some []
  | some s =>
    if s = [] then some []
    else (List.foldlM listStep (false, false, []) (splitNL (pyStrip s))).map (·.2.2)

/-! ## `parse_scoop_updates_info` (src/main.py lines 529-605) -/

/-- The self-update candidate `updates['scoop']`. -/
structure ScoopUpd where
  current : Str
  new : Str
deriving DecidableEq

/-- One element of `updates['apps']`. -/
structure AppUpd where
  name : Str
  current : Str
  new : Str
deriving DecidableEq

/-- The `updates` dictionary returned by `parse_scoop_updates_info`. -/
structure UpdatesInfo where
  scoop : Option ScoopUpd
  apps : List AppUpd
deriving DecidableEq

/-- Loop state of `parse_scoop_updates_info`: the `updates['scoop']` slot,
the `data_section_started` flag, the `added_app_names` set (modelled as the
list of names in insertion order; membership is exact, as in the source,
which adds `app_name` rather than `app_name.lower()`), and
`updates['apps']`. -/
structure StatusState where
  scoop : Option ScoopUpd
  dataStarted : Bool
  added : List Str
  apps : List AppUpd
deriving DecidableEq

/-- The sentinel non-values of src/main.py line 594. -/
def sentinelVals : List Str :=
  [str "n/a", str "-", str "unknown", str "error", str "latest"]

/-- src/main.py lines 574-589: from the tokens of a data row with at least
3 tokens, read the name, the two table versions, and compute
`final_new_version` (the inline `Update available:` annotation in the
joined tokens beyond index 2 overrides the table column when present). -/
def statusRowData (parts : List Str) : Option (Str × Str × Str) := do
  let appName ← parts.get? 0
  let cur ← parts.get? 1
  let newv ← parts.get? 2
  let final ←
    if 3 < parts.length then
      match searchUpdAvail (List.intercalate (str " ") (parts.drop 3)) with
      | some v => pure v
      | none => pure newv
    else pure newv
  pure (appName, cur, final)

/-- src/main.py lines 571-594: a status data row with at least 3 tokens
yields an update candidate exactly when `current != final_new_version` and
the final new version (lowercased) is not a sentinel non-value. -/
def statusRowClassify (parts : List Str) : Option (Option AppUpd) :=
  if 3 ≤ parts.length then do
    let (appName, cur, final) ← statusRowData parts
    pure (if cur ≠ final && !(sentinelVals.contains (lowerStr final)) then
      some ⟨appName, cur, final⟩ else none)
  else pure none

/-- One loop iteration of `parse_scoop_updates_info` over a cleaned line. -/
def statusStep (st : StatusState) (line : Str) : Option StatusState :=
  if line = [] then some st
  else
    match searchScoopUpd line with
    | some (a, b) => some ⟨some ⟨a, b⟩, st.dataStarted, st.added, st.apps⟩
    | none =>
      if containsSub (str "----") line && !containsSub (str "Name") line &&
          !containsSub (str "Version") line then
        some ⟨st.scoop, true, st.added, st.apps⟩
      else if !st.dataStarted then some st
      else if startsWithL (str "name ") (lowerStr line) &&
          containsSub (str "version") (lowerStr line) then
        some st
      else do
        let r ← statusRowClassify (splitWS line)
        match r with
        | some au =>
          if lowerStr au.name ≠ str "scoop" && !(st.added.contains au.name) then
            pure ⟨st.scoop, st.dataStarted, st.added ++ [au.name], st.apps ++ [au]⟩
          else pure st
        | none => pure st

/-- `parse_scoop_updates_info` (src/main.py lines 529-605).  A falsy
argument (`None` or the empty string) returns the empty `updates`
dictionary via the early guard; otherwise the lines are sanitized and
stripped up front and then folded over. -/
def parse_scoop_updates_info (statusOutput : Option Str) : Option UpdatesInfo :=
  match statusOutput with
  | none => some ⟨none, []⟩
  | some s =>
    if s = [] then some ⟨none, []⟩
    else
      let cleaned := (splitNL (pyStrip s)).map (fun l => pyStrip (removeAnsiStr l))
      (List.foldlM statusStep ⟨none, false, [], []⟩ cleaned).map
        (fun st => ⟨st.scoop, st.apps⟩)

/-! ## Step 4 of `refresh_manage_apps_list` (src/main.py lines 710-763):
combining the parsed status and list outputs into the sorted candidate
sequence. -/

/-- One entry of `managed_apps_candidates`. -/
structure ManagedApp where
  name : Str
  original_name : Str
  current_version : Str
  new_version : Str
  status_text : Str
  has_update : Bool
  is_scoop_self : Bool
  source_bucket : Str
deriving DecidableEq

/-- The dict comprehension of src/main.py line 712
(`{app['name'].lower(): app for app in updates_info.get('apps', [])}`):
lookup by lowercased name, later entries overwriting earlier ones. -/
def appUpdatesDict (apps : List AppUpd) (k : Str) : Option AppUpd :=
  apps.foldl (fun acc a => if lowerStr a.name = k then some a else acc) none

/-- The synthetic self-update entry of src/main.py lines 716-725. -/
def scoopSelfEntry (su : ScoopUpd) : ManagedApp :=
  ⟨str "Scoop (Self-Update)", str "scoop", su.current, su.new,
    str "Scoop Update Available", true, true, str "Scoop Core"⟩

/-- Loop body of src/main.py lines 729-756; the state is
`(managed_apps_candidates, processed_app_names_lower)`. -/
def combineStep (updApps : List AppUpd) (st : List ManagedApp × List Str)
    (app : ListRec) : List ManagedApp × List Str :=
  let nl := lowerStr app.name
  if st.2.contains nl then st
  else
    let cand : ManagedApp :=
      match appUpdatesDict updApps nl with
      | some ud =>
        ⟨app.name, app.name, ud.current, ud.new, str "Update Available",
          true, false, app.source⟩
      | none =>
        ⟨app.name, app.name, app.version, str "N/A", str "Installed",
          false, false, app.source⟩
    (st.1 ++ [cand], st.2 ++ [nl])

/-- The three-tier sort key of src/main.py lines 759-762. -/
def sortKey (a : ManagedApp) : Nat × Str :=
  (if a.is_scoop_self then 0 else if a.has_update then 1 else 2,
    lowerStr a.name)

/-- Python `<` on strings: lexicographic comparison by code point
(`Char.<` compares the code points). -/
def strLtB : Str → Str → Bool
  | [], [] => false
  | [], _ :: _ => true
  | _ :: _, [] => false
  | a :: as, b :: bs =>
    if a < b then true
    else if b < a then false
    else strLtB as bs

/-- `≤` on the sort keys (lexicographic on the pair). -/
def keyLe (x y : Nat × Str) : Bool :=
  x.1 < y.1 || (x.1 = y.1 && !strLtB y.2 x.2)

/-- The comparison handed to the (stable) sort of src/main.py line 763. -/
def managedLe (a b : ManagedApp) : Bool := keyLe (sortKey a) (sortKey b)

/-- `managedLe` as a relation, for the stable sort. -/
def ManagedRel (a b : ManagedApp) : Prop := managedLe a b = true

instance : DecidableRel ManagedRel := fun a b => by
  unfold ManagedRel; infer_instance

/-- src/main.py lines 710-763: build `managed_apps_candidates` from the
parsed status and list outputs and sort it with the three-tier key. -/
def build_managed_apps_candidates (updates : UpdatesInfo)
    (installed : List ListRec) : List ManagedApp :=
  let selfC : List ManagedApp :=
    match updates.scoop with
    | some su => [scoopSelfEntry su]
    | none => []
  let proc0 : List Str :=
    match updates.scoop with
    | some _ => [str "scoop"]
    | none => []
  List.insertionSort ManagedRel
    (installed.foldl (combineStep updates.apps) (selfC, proc0)).1

/-! ## The refresh pipeline `refresh_manage_apps_list`
(src/main.py lines 607-795)

The caller-visible effects of one refresh run, in order: the synchronous
clear at line 616, then (in the worker thread, marshalled back to the UI
thread) the error dialog plus clear of each abort path, the non-fatal
status warning of lines 681-682, and the single wholesale publication of
lines 766-791.  The outcomes of the three external commands are the
pipeline's inputs. -/

inductive RefreshEvent where
  | clearList
  | metadataError (details : Str)
  | statusError (details : Str)
  | statusWarning (msg : Str)
  | listError (details : Str)
  | publish (inv : List ManagedApp)
deriving DecidableEq

/-- Python `stderr or stdout or default` on the captured streams. -/
def pyOrDetails (err : Str) (out : Option Str) (dflt : Str) : Str :=
  if err ≠ [] then err
  else
    match out with
    | some o => if o ≠ [] then o else dflt
    | none => dflt

/-- Python truthiness of an optional string: `None` and `""` are falsy. -/
def optFalsy : Option Str → Bool
  | none => true
  | some s => s = []

/-- The ordered caller-visible events of one run of
`refresh_manage_apps_list` (src/main.py lines 607-795), as a function of
the three command outcomes.  `none` models an uncaught exception in the
worker thread. -/
def refresh_manage_apps_list (u s l : CmdOutcome) : Option (List RefreshEvent) :=
  if u.code ≠ 0 then
    some [.clearList,
      .metadataError (pyOrDetails u.stderr u.stdout
        (str "Unknown error during 'scoop update'.")), .clearList]
  else if s.code ≠ 0 then
    some [.clearList,
      .statusError (pyOrDetails s.stderr s.stdout
        (str "Unknown error during 'scoop status'.")), .clearList]
  else do
    let warn : List RefreshEvent :=
      if s.stderr ≠ [] && optFalsy s.stdout then [.statusWarning s.stderr] else []
    let updates ← parse_scoop_updates_info s.stdout
    if l.code ≠ 0 then
      pure ([.clearList] ++ warn ++
        [.listError (pyOrDetails l.stderr l.stdout
          (str "Unknown error during 'scoop list'.")), .clearList])
    else do
      let installed ← parse_scoop_list_apps l.stdout
      pure ([.clearList] ++ warn ++
        [.publish (build_managed_apps_candidates updates installed)])

/-- The successive values taken by the caller-visible inventory
(`current_managed_apps_data`) over a run, starting from the previously
published inventory: `clearList` resets it to `[]`, `publish` replaces it
wholesale. -/
def publishedTrace (prev : List ManagedApp) (evs : List RefreshEvent) :
    List (List ManagedApp) :=
  evs.foldl (fun tr e =>
    match e with
    | .clearList => tr ++ [[]]
    | .publish inv => tr ++ [inv]
    | _ => tr) [prev]

/-! ## Shared fold lemmas -/

theorem foldlM_option_inv {σ α : Type} (f : σ → α → Option σ) (P : σ → Prop)
    (hstep : ∀ s a s', f s a = some s' → P s → P s') :
    ∀ (l : List α) (s s' : σ), List.foldlM f s l = some s' → P s → P s' := by
  intro l
  induction l with
  | nil =>
    intro s s' h hp
    simp only [List.foldlM_nil, pure, Option.some.injEq] at h
    rwa [← h]
  | cons a l ih =>
    intro s s' h hp
    rw [List.foldlM_cons] at h
    rcases hbind : f s a with _ | s1 <;> rw [hbind] at h
    · simp at h
    · replace h : List.foldlM f s1 l = some s' := by simpa using h
      exact ih s1 s' h (hstep s a s1 hbind hp)

theorem foldlM_option_rel {σ α : Type} (f : σ → α → Option σ) (R : σ → σ → Prop)
    (hrefl : ∀ s, R s s) (htrans : ∀ a b c, R a b → R b c → R a c)
    (hstep : ∀ s a s', f s a = some s' → R s s') :
    ∀ (l : List α) (s s' : σ), List.foldlM f s l = some s' → R s s' := by
  intro l
  induction l with
  | nil =>
    intro s s' h
    simp only [List.foldlM_nil, pure, Option.some.injEq] at h
    rw [← h]; exact hrefl s
  | cons a l ih =>
    intro s s' h
    rw [List.foldlM_cons] at h
    rcases hbind : f s a with _ | s1 <;> rw [hbind] at h
    · simp at h
    · replace h : List.foldlM f s1 l = some s' := by simpa using h
      exact htrans _ _ _ (hstep s a s1 hbind) (ih s1 s' h)

theorem foldlM_option_total {σ α : Type} (f : σ → α → Option σ)
    (hstep : ∀ s a, (f s a).isSome) :
    ∀ (l : List α) (s : σ), (List.foldlM f s l).isSome := by
  intro l
  induction l with
  | nil => intro s; simp [List.foldlM_nil, pure]
  | cons a l ih =>
    intro s
    rw [List.foldlM_cons]
    rcases hbind : f s a with _ | s1
    · have := hstep s a
      rw [hbind] at this
      simp at this
    · have h2 := ih s1
      simpa using h2

theorem foldl_inv {σ α : Type} (f : σ → α → σ) (P : σ → Prop)
    (hstep : ∀ s a, P s → P (f s a)) :
    ∀ (l : List α) (s : σ), P s → P (l.foldl f s) := by
  intro l
  induction l with
  | nil => intro s hp; simpa using hp
  | cons a l ih =>
    intro s hp
    rw [List.foldl_cons]
    exact ih (f s a) (hstep s a hp)

/-! ## C8: CommandRunner failure classification -/

/-- C8: `get_scoop_command_output` classifies every launch result totally
and mutually exclusively: an absent executable yields the tool-not-found
message with sentinel exit code `-1`; a timeout yields the timed-out
message with `-1`; any other setup failure yields a descriptive generic
message with `-1`; a completed process yields its streams and its exact
exit code (`0` for success, `N` for a non-zero exit); the three failure
messages are pairwise distinct, and `stdout = none` exactly on the failure
paths. -/
theorem command_runner_classification :
    get_scoop_command_output .fileNotFound =
      ⟨none, str "Scoop command not found.", -1⟩ ∧
    get_scoop_command_output .timedOut = ⟨none, str "Command timed out.", -1⟩ ∧
    (∀ m : Str, get_scoop_command_output (.otherError m) =
      ⟨none, str "An unexpected error occurred: " ++ m, -1⟩) ∧
    (∀ (out err : Str) (c : Int),
      get_scoop_command_output (.completed out err c) = ⟨some out, err, c⟩) ∧
    (∀ pr : ProcResult, (get_scoop_command_output pr).stdout = none ↔
      ∀ out err c, pr ≠ .completed out err c) ∧
    (str "Scoop command not found." ≠ str "Command timed out." ∧
      (∀ m : Str, str "Scoop command not found." ≠
        str "An unexpected error occurred: " ++ m) ∧
      (∀ m : Str, str "Command timed out." ≠
        str "An unexpected error occurred: " ++ m)) := by
  refine ⟨rfl, rfl, fun m => rfl, fun out err c => rfl, ?_, ?_, ?_, ?_⟩
  · intro pr
    cases pr <;> simp [get_scoop_command_output]
  · decide
  · intro m
    intro h
    have := congrArg List.length h
    simp [str] at this
  · intro m
    intro h
    have := congrArg List.length h
    simp [str] at this

/-! ## C9: the sanitizer -/

theorem matchAnsiAfterEsc_sublist {l r : Str} (h : matchAnsiAfterEsc l = some r) :
    r.Sublist l := by
  match l with
  | [] => simp [matchAnsiAfterEsc] at h
  | c :: rest =>
    simp only [matchAnsiAfterEsc] at h
    split at h
    · cases h
      exact (List.sublist_cons_self _ _)
    · split at h
      · split at h
        · cases h
        · rename_i f rest3 heq
          split at h
          · have h5 : rest3 = r := by injection h
            subst h5
            have s1 : (f :: rest3).Sublist rest := by
              rw [← heq]
              exact ((List.dropWhile_sublist _).trans (List.dropWhile_sublist _))
            exact ((List.sublist_cons_self f rest3).trans s1).trans
              (List.sublist_cons_self c rest)
          · cases h
      · cases h

theorem removeAnsiGo_sublist : ∀ (fuel : Nat) (l : Str),
    (removeAnsiGo fuel l).Sublist l := by
  intro fuel
  induction fuel with
  | zero => intro l; simp [removeAnsiGo]
  | succ fuel ih =>
    intro l
    match l with
    | [] => simp [removeAnsiGo]
    | c :: rest =>
      simp only [removeAnsiGo]
      split
      · rcases hm : matchAnsiAfterEsc rest with _ | rest'
        · exact (ih rest).cons₂ c
        · exact ((ih rest').trans (matchAnsiAfterEsc_sublist hm)).trans
            (List.sublist_cons_self c rest)
      · exact (ih rest).cons₂ c

theorem removeAnsiGo_no_esc : ∀ (fuel : Nat) (l : Str),
    '\x1b' ∉ l → removeAnsiGo fuel l = l := by
  intro fuel
  induction fuel with
  | zero => intro l _; simp [removeAnsiGo]
  | succ fuel ih =>
    intro l hmem
    match l with
    | [] => simp [removeAnsiGo]
    | c :: rest =>
      have hc : c ≠ '\x1b' := fun hh => hmem (hh ▸ List.mem_cons_self c rest)
      simp only [removeAnsiGo]
      rw [if_neg hc]
      rw [ih rest (fun hh => hmem (List.mem_cons_of_mem c hh))]

/-- C9: the sanitizer is a pure function of its input; absent (`None`)
input maps to the empty string; the output is always a subsequence of the
input (visible characters are kept unchanged and in order, only matched
escape sequences are removed); input containing no ESC byte is returned
verbatim; and the concrete green/reset example sanitizes as stated. -/
theorem sanitizer_spec :
    remove_ansi_codes none = [] ∧
    (∀ s : Str, (removeAnsiStr s).Sublist s) ∧
    (∀ s : Str, '\x1b' ∉ s → remove_ansi_codes (some s) = s) ∧
    remove_ansi_codes (some (str "\x1b[32mfoo\x1b[0m bar")) = str "foo bar" := by
  refine ⟨rfl, ?_, ?_, by decide⟩
  · intro s
    exact removeAnsiGo_sublist s.length s
  · intro s h
    exact removeAnsiGo_no_esc s.length s h

/-- Concrete instantiation of the hypothesis-carrying parts of
`sanitizer_spec`. -/
theorem sanitizer_spec_witness :
    (removeAnsiStr (str "abc")).Sublist (str "abc") ∧
    remove_ansi_codes (some (str "abc")) = str "abc" :=
  ⟨sanitizer_spec.2.1 (str "abc"),
    sanitizer_spec.2.2.1 (str "abc") (by decide)⟩

/-! ## C3: totality of the parsers -/

theorem searchRow_total (parts : List Str) : (searchRow parts).isSome := by
  rcases parts with _ | ⟨a, _ | ⟨b, rest⟩⟩
  · simp [searchRow]
  · simp [searchRow]
  · rcases rest with _ | ⟨c, rest2⟩ <;> simp [searchRow, List.get?]

theorem listRow_total (parts : List Str) : (listRow parts).isSome := by
  rcases parts with _ | ⟨a, _ | ⟨b, _ | ⟨c, _ | ⟨d, rest⟩⟩⟩⟩ <;>
    simp [listRow, List.get?]

theorem statusRowData_total (parts : List Str) (h : 3 ≤ parts.length) :
    (statusRowData parts).isSome := by
  rcases parts with _ | ⟨a, _ | ⟨b, _ | ⟨c, rest⟩⟩⟩
  · simp at h
  · simp at h
  · simp at h
  · simp only [statusRowData, List.get?]
    rcases hs : searchUpdAvail (List.intercalate (str " ") rest) with _ | v <;>
      simp [hs] <;> split <;> simp

theorem statusRowClassify_total (parts : List Str) :
    (statusRowClassify parts).isSome := by
  simp only [statusRowClassify]
  split
  · rename_i h
    rcases hd : statusRowData parts with _ | v
    · have := statusRowData_total parts h
      rw [hd] at this; simp at this
    · simp [hd]
  · simp

theorem searchStep_total (st : Bool × List SearchRec) (line : Str) :
    (searchStep st line).isSome := by
  simp only [searchStep]
  split
  · simp
  split
  · simp
  split
  · simp
  · rcases h : searchRow (splitWS (pyStrip (removeAnsiStr line))) with _ | r
    · have := searchRow_total (splitWS (pyStrip (removeAnsiStr line)))
      rw [h] at this; simp at this
    · simp [h]

theorem listStep_total (st : Bool × Bool × List ListRec) (line : Str) :
    (listStep st line).isSome := by
  simp only [listStep]
  split
  · simp
  split
  · simp
  split
  · simp
  split
  · simp
  · rcases h : listRow (splitWSMax 3 (pyStrip (removeAnsiStr line))) with _ | r
    · have := listRow_total (splitWSMax 3 (pyStrip (removeAnsiStr line)))
      rw [h] at this; simp at this
    · simp [h]

theorem statusStep_total (st : StatusState) (line : Str) :
    (statusStep st line).isSome := by
  simp only [statusStep]
  split
  · simp
  split
  · simp
  split
  · simp
  split
  · simp
  split
  · simp
  · rcases h : statusRowClassify (splitWS line) with _ | r
    · have := statusRowClassify_total (splitWS line)
      rw [h] at this; simp at this
    · rcases r with _ | au
      · rfl
      · show (if lowerStr au.name ≠ str "scoop" && !(st.added.contains au.name) then
            (pure ⟨st.scoop, st.dataStarted, st.added ++ [au.name], st.apps ++ [au]⟩ :
              Option StatusState)
          else pure st).isSome = true
        split <;> simp

theorem parse_scoop_search_results_total (s : Str) :
    (parse_scoop_search_results (some s)).isSome := by
  simp only [parse_scoop_search_results]
  rcases h : List.foldlM searchStep (false, []) (splitNL (pyStrip s)) with _ | st
  · have := foldlM_option_total searchStep searchStep_total (splitNL (pyStrip s)) (false, [])
    rw [h] at this; simp at this
  · simp

theorem parse_scoop_list_apps_total (o : Option Str) :
    (parse_scoop_list_apps o).isSome := by
  rcases o with _ | s
  · simp [parse_scoop_list_apps]
  · simp only [parse_scoop_list_apps]
    split
    · simp
    · rcases h : List.foldlM listStep (false, false, []) (splitNL (pyStrip s)) with _ | st
      · have := foldlM_option_total listStep listStep_total (splitNL (pyStrip s)) (false, false, [])
        rw [h] at this; simp at this
      · simp

theorem parse_scoop_updates_info_total (o : Option Str) :
    (parse_scoop_updates_info o).isSome := by
  rcases o with _ | s
  · simp [parse_scoop_updates_info]
  · simp only [parse_scoop_updates_info]
    split
    · simp
    · rcases h : List.foldlM statusStep ⟨none, false, [], []⟩
          ((splitNL (pyStrip s)).map (fun l => pyStrip (removeAnsiStr l))) with _ | st
      · have := foldlM_option_total statusStep statusStep_total
          ((splitNL (pyStrip s)).map (fun l => pyStrip (removeAnsiStr l))) ⟨none, false, [], []⟩
        rw [h] at this; simp at this
      · simp

/-- Search-mode: a line whose tokenization has fewer than 2 tokens never
raises and never changes the accumulated results. -/
theorem searchStep_short (st : Bool × List SearchRec) (line : Str)
    (h : (splitWS (pyStrip (removeAnsiStr line))).length < 2) :
    ∃ st', searchStep st line = some st' ∧ st'.2 = st.2 := by
  simp only [searchStep]
  split
  · exact ⟨st, rfl, rfl⟩
  split
  · exact ⟨(true, st.2), rfl, rfl⟩
  split
  · exact ⟨st, rfl, rfl⟩
  · have hr : searchRow (splitWS (pyStrip (removeAnsiStr line))) = some none := by
      simp only [searchRow]
      rw [if_neg (by omega)]
      rfl
    refine ⟨(st.1, st.2), ?_, rfl⟩
    rw [hr]
    simp

/-- List-mode: a line whose tokenization has fewer than 2 tokens never
raises and never changes the accumulated results. -/
theorem listStep_short (st : Bool × Bool × List ListRec) (line : Str)
    (h : (splitWSMax 3 (pyStrip (removeAnsiStr line))).length < 2) :
    ∃ st', listStep st line = some st' ∧ st'.2.2 = st.2.2 := by
  simp only [listStep]
  split
  · exact ⟨st, rfl, rfl⟩
  split
  · exact ⟨(true, false, st.2.2), rfl, rfl⟩
  split
  · exact ⟨st, rfl, rfl⟩
  split
  · exact ⟨(st.1, true, st.2.2), rfl, rfl⟩
  · have hr : listRow (splitWSMax 3 (pyStrip (removeAnsiStr line))) = some none := by
      simp only [listRow]
      rw [if_neg (by omega)]
      rfl
    refine ⟨(st.1, st.2.1, st.2.2), ?_, rfl⟩
    rw [hr]
    simp

/-- Status-mode: a (cleaned) line that does not carry the self-update
announcement and whose tokenization has fewer than 3 tokens never raises
and never changes the accumulated update candidates. -/
theorem statusStep_short (st : StatusState) (line : Str)
    (hscoop : searchScoopUpd line = none) (h : (splitWS line).length < 3) :
    ∃ st', statusStep st line = some st' ∧ st'.apps = st.apps ∧
      st'.scoop = st.scoop := by
  simp only [statusStep, hscoop]
  split
  · exact ⟨st, rfl, rfl, rfl⟩
  split
  · exact ⟨⟨st.scoop, true, st.added, st.apps⟩, rfl, rfl, rfl⟩
  split
  · exact ⟨st, rfl, rfl, rfl⟩
  split
  · exact ⟨st, rfl, rfl, rfl⟩
  · have hr : statusRowClassify (splitWS line) = some none := by
      simp only [statusRowClassify]
      rw [if_neg (by omega)]
      rfl
    refine ⟨st, ?_, rfl, rfl⟩
    rw [hr]
    rfl

/-- C3 counterexample: search-mode parsing of an absent (`None`) input
does not return an empty result — `None.strip()` raises an
`AttributeError` in the source, modelled here by the `none` outcome — so
the three parsers are not all total on absent input. -/
theorem parsers_C3_counterexample :
    parse_scoop_search_results none = none ∧
    parse_scoop_search_results none ≠ some [] := ⟨rfl, by decide⟩

/-- C3 (amended): search-mode parsing raises on absent (`None`) input (its
callers guard against this), but on every string input — including the
empty string — it returns without error; list-mode and status-mode return
an empty result on absent or empty input and return without error on every
input; and in each mode a data line that tokenizes to fewer than the
mode's minimum required fields (2, 2, and 3 tokens respectively) is
silently skipped, leaving the accumulated rows unchanged, rather than
raising. -/
theorem parsers_C3 :
    (∀ s : Str, (parse_scoop_search_results (some s)).isSome) ∧
    (∀ o : Option Str, (parse_scoop_list_apps o).isSome) ∧
    (∀ o : Option Str, (parse_scoop_updates_info o).isSome) ∧
    parse_scoop_search_results none = none ∧
    parse_scoop_search_results (some []) = some [] ∧
    parse_scoop_list_apps none = some [] ∧
    parse_scoop_list_apps (some []) = some [] ∧
    parse_scoop_updates_info none = some ⟨none, []⟩ ∧
    parse_scoop_updates_info (some []) = some ⟨none, []⟩ ∧
    (∀ (st : Bool × List SearchRec) (line : Str),
      (splitWS (pyStrip (removeAnsiStr line))).length < 2 →
      ∃ st', searchStep st line = some st' ∧ st'.2 = st.2) ∧
    (∀ (st : Bool × Bool × List ListRec) (line : Str),
      (splitWSMax 3 (pyStrip (removeAnsiStr line))).length < 2 →
      ∃ st', listStep st line = some st' ∧ st'.2.2 = st.2.2) ∧
    (∀ (st : StatusState) (line : Str), searchScoopUpd line = none →
      (splitWS line).length < 3 →
      ∃ st', statusStep st line = some st' ∧ st'.apps = st.apps ∧
        st'.scoop = st.scoop) :=
  ⟨parse_scoop_search_results_total, parse_scoop_list_apps_total,
    parse_scoop_updates_info_total, rfl, by decide, rfl, by decide, rfl,
    by decide, searchStep_short, listStep_short, statusStep_short⟩

/-- Concrete instantiation of the hypothesis-carrying parts of
`parsers_C3`. -/
theorem parsers_C3_witness :
    (∃ st', searchStep (true, []) (str "onlyone") = some st' ∧ st'.2 = []) ∧
    (∃ st', listStep (true, true, []) (str "onlyone") = some st' ∧
      st'.2.2 = []) ∧
    (∃ st', statusStep ⟨none, true, [], []⟩ (str "a b") = some st' ∧
      st'.apps = [] ∧ st'.scoop = none) :=
  ⟨parsers_C3.2.2.2.2.2.2.2.2.2.1 (true, []) (str "onlyone") (by decide),
    parsers_C3.2.2.2.2.2.2.2.2.2.2.1 (true, true, []) (str "onlyone")
      (by decide),
    parsers_C3.2.2.2.2.2.2.2.2.2.2.2 ⟨none, true, [], []⟩ (str "a b")
      (by decide) (by decide)⟩

/-! ## C5: final new version and update classification of a status row -/

theorem statusRowData_cons (a b c : Str) (rest : List Str) :
    statusRowData (a :: b :: c :: rest) = some (a, b,
      match searchUpdAvail (List.intercalate (str " ") rest) with
      | some v => v
      | none => c) := by
  rcases rest with _ | ⟨d, rest2⟩
  · rfl
  · have hlt : 3 < (a :: b :: c :: d :: rest2).length := by simp
    rcases hs : searchUpdAvail (List.intercalate (str " ") (d :: rest2)) with _ | v <;>
      simp [statusRowData, List.get?, hs, hlt]

theorem statusRowClassify_cons (a b c F : Str) (rest : List Str)
    (hF : statusRowData (a :: b :: c :: rest) = some (a, b, F)) :
    statusRowClassify (a :: b :: c :: rest) =
      some (if b ≠ F ∧ lowerStr F ∉ sentinelVals then some ⟨a, b, F⟩ else none) := by
  simp only [statusRowClassify, hF]
  rw [if_pos (show 3 ≤ (a :: b :: c :: rest).length by simp)]
  exact congrArg some (if_congr (by simp) rfl rfl)

/-- Spec-side formulation (spec section 4.2, status mode): the final new
version of a data row with at least 3 tokens is the version captured by
the inline "Update available:" pattern searched in the joined tokens
beyond index 2 when such a pattern is present, and otherwise token 2.
(The source only runs the search when there are more than 3 tokens; on
exactly 3 tokens the joined remainder is empty and the search cannot
succeed, so the two formulations agree — `status_row_C5` proves it.) -/
def specFinalNewVersion (parts : List Str) (h : 3 ≤ parts.length) : Str :=
  match searchUpdAvail (List.intercalate (str " ") (parts.drop 3)) with
  | some v => v
  | none => parts.get ⟨2, by omega⟩

/-- C5: for every status data row with at least 3 tokens, the computed
final new version is the one captured by an inline "Update available:"
pattern in the tokens beyond index 2 when present and token 2 otherwise,
and the row is classified as having an update — emitting the candidate
`(token 0, token 1, final)` — exactly when token 1 differs from the final
new version and the final new version, lowercased, is not one of the five
sentinel non-values. -/
theorem status_row_C5 (parts : List Str) (h : 3 ≤ parts.length) :
    statusRowClassify parts =
      some (if parts.get ⟨1, by omega⟩ ≠ specFinalNewVersion parts h ∧
          lowerStr (specFinalNewVersion parts h) ∉ sentinelVals then
        some ⟨parts.get ⟨0, by omega⟩, parts.get ⟨1, by omega⟩,
          specFinalNewVersion parts h⟩
      else none) := by
  rcases parts with _ | ⟨a, _ | ⟨b, _ | ⟨c, rest⟩⟩⟩
  · simp at h
  · simp at h
  · simp at h
  · exact statusRowClassify_cons a b c _ rest (statusRowData_cons a b c rest)

/-- Concrete instantiation of `status_row_C5`: the row
`curl 8.0 8.1` is classified as an update candidate. -/
theorem status_row_C5_witness :
    statusRowClassify [str "curl", str "8.0", str "8.1"] =
      some (some ⟨str "curl", str "8.0", str "8.1"⟩) := by
  have h := status_row_C5 [str "curl", str "8.0", str "8.1"] (by decide)
  rw [h]
  decide

/-! ## C2: duplicate suppression in status-mode parsing -/

/-- A classified status row always carries a non-sentinel new version that
differs from the current version. -/
theorem statusRowClassify_some {parts : List Str} {au : AppUpd}
    (h : statusRowClassify parts = some (some au)) :
    lowerStr au.new ∉ sentinelVals ∧ au.current ≠ au.new := by
  rcases parts with _ | ⟨a, _ | ⟨b, _ | ⟨c, rest⟩⟩⟩
  · simp [statusRowClassify] at h
  · simp [statusRowClassify] at h
  · simp [statusRowClassify] at h
  · rw [statusRowClassify_cons a b c _ rest (statusRowData_cons a b c rest)] at h
    injection h with h
    split at h
    · rename_i hc
      injection h with h
      rw [← h]
      exact ⟨hc.2, hc.1⟩
    · cases h

/-- Case analysis on one status-parser step: either the added-names set
and the candidate list are unchanged, or exactly one candidate is appended
whose (exact) name was not yet in the added-names set, is not the
manager's identifier, and whose new version is not a sentinel. -/
theorem statusStep_cases (st : StatusState) (line : Str) (st' : StatusState)
    (h : statusStep st line = some st') :
    (st'.added = st.added ∧ st'.apps = st.apps) ∨
    (∃ au : AppUpd, lowerStr au.name ≠ str "scoop" ∧ au.name ∉ st.added ∧
      lowerStr au.new ∉ sentinelVals ∧ au.current ≠ au.new ∧
      st'.added = st.added ++ [au.name] ∧ st'.apps = st.apps ++ [au]) := by
  simp only [statusStep] at h
  split at h
  · left; injection h with h; rw [← h]; exact ⟨rfl, rfl⟩
  split at h
  · left; injection h with h; rw [← h]; exact ⟨rfl, rfl⟩
  split at h
  · left; injection h with h; rw [← h]; exact ⟨rfl, rfl⟩
  split at h
  · left; injection h with h; rw [← h]; exact ⟨rfl, rfl⟩
  split at h
  · left; injection h with h; rw [← h]; exact ⟨rfl, rfl⟩
  · rcases hr : statusRowClassify (splitWS line) with _ | r <;> rw [hr] at h
    · cases h
    · rcases r with _ | au
      · left
        replace h : some st = some st' := h
        injection h with h; rw [← h]; exact ⟨rfl, rfl⟩
      · replace h : (if lowerStr au.name ≠ str "scoop" && !(st.added.contains au.name) then
            (pure ⟨st.scoop, st.dataStarted, st.added ++ [au.name], st.apps ++ [au]⟩ :
              Option StatusState)
          else pure st) = some st' := h
        split at h
        · rename_i hcond
          right
          refine ⟨au, ?_, ?_, (statusRowClassify_some hr).1,
            (statusRowClassify_some hr).2, ?_, ?_⟩
          · simp only [Bool.and_eq_true, decide_eq_true_eq] at hcond
            exact hcond.1
          · simp only [Bool.and_eq_true, Bool.not_eq_eq_eq_not, Bool.not_true,
              List.contains_eq_any_beq] at hcond
            intro hmem
            have h2 : (st.added.any fun x => au.name == x) = true :=
              List.any_eq_true.mpr ⟨au.name, hmem, by simp⟩
            rw [hcond.2] at h2
            cases h2
          · injection h with h; rw [← h]
          · injection h with h; rw [← h]
        · left
          injection h with h; rw [← h]; exact ⟨rfl, rfl⟩

/-- The status-parser fold preserves: candidate names are pairwise
distinct, and every candidate name is recorded in the added-names set. -/
theorem statusFold_nodup (lines : List Str) (st st' : StatusState)
    (h : List.foldlM statusStep st lines = some st')
    (hp : (st.apps.map (fun a => a.name)).Nodup ∧
      ∀ a ∈ st.apps, a.name ∈ st.added) :
    (st'.apps.map (fun a => a.name)).Nodup ∧
      ∀ a ∈ st'.apps, a.name ∈ st'.added := by
  refine foldlM_option_inv statusStep
    (fun s => (s.apps.map (fun a => a.name)).Nodup ∧
      ∀ a ∈ s.apps, a.name ∈ s.added) ?_ lines st st' h hp
  intro s a s' hstep hs
  rcases statusStep_cases s a s' hstep with ⟨ha, hb⟩ | ⟨au, _, hnotadded, _, _, ha, hb⟩
  · rw [ha, hb]; exact hs
  · rw [ha, hb]
    constructor
    · rw [List.map_append]
      rw [List.nodup_append]
      refine ⟨hs.1, by simp, ?_⟩
      intro x hx
      simp only [List.map_cons, List.map_nil, List.mem_singleton]
      intro hxau
      rw [hxau] at hx
      simp only [List.mem_map] at hx
      obtain ⟨rec, hrec, hname⟩ := hx
      exact hnotadded (hname ▸ hs.2 rec hrec)
    · intro x hx
      rcases List.mem_append.mp hx with hx | hx
      · exact List.mem_append_left _ (hs.2 x hx)
      · simp only [List.mem_singleton] at hx
        rw [hx]
        exact List.mem_append_right _ (by simp)

/-- Decompose a successful `parse_scoop_updates_info` run into the
underlying fold. -/
theorem parse_scoop_updates_info_fold {o : Option Str} {u : UpdatesInfo}
    (h : parse_scoop_updates_info o = some u) :
    u = ⟨none, []⟩ ∨
    ∃ (s : Str) (st : StatusState), o = some s ∧
      List.foldlM statusStep ⟨none, false, [], []⟩
        ((splitNL (pyStrip s)).map (fun l => pyStrip (removeAnsiStr l))) =
          some st ∧
      u = ⟨st.scoop, st.apps⟩ := by
  rcases o with _ | s
  · left
    simp only [parse_scoop_updates_info, Option.some.injEq] at h
    exact h.symm
  · simp only [parse_scoop_updates_info] at h
    split at h
    · left
      injection h with h
      exact h.symm
    · right
      rcases hf : List.foldlM statusStep ⟨none, false, [], []⟩
          ((splitNL (pyStrip s)).map (fun l => pyStrip (removeAnsiStr l))) with _ | st
      · rw [hf] at h; cases h
      · rw [hf] at h
        refine ⟨s, st, rfl, hf, ?_⟩
        simpa using h.symm

/-- C2 counterexample: on a status text whose data rows are
`Foo 1.0 2.0` and `foo 1.0 2.0`, the parsed app-update list contains two
records whose names are equal case-insensitively (the added-names set of
the source stores the original-case name, so the duplicate check is
case-sensitive). -/
theorem status_dedup_C2_counterexample :
    (parse_scoop_updates_info
        (some (str "----\nFoo 1.0 2.0\nfoo 1.0 2.0"))).map
      (fun u => u.apps.map (fun a => a.name)) = some [str "Foo", str "foo"] ∧
    lowerStr (str "Foo") = lowerStr (str "foo") ∧ str "Foo" ≠ str "foo" := by
  decide

/-- C2 (amended): in status-mode parsing, duplicate package names are
suppressed by exact (case-sensitive) comparison with the first occurrence
winning: the parsed app-update list never contains two records with equal
names, and processing further lines only ever appends to the
previously-emitted record list (so the record produced by an earlier row
is never replaced by a later row). -/
theorem status_dedup_C2 :
    (∀ (o : Option Str) (u : UpdatesInfo), parse_scoop_updates_info o = some u →
      (u.apps.map (fun a => a.name)).Nodup) ∧
    (∀ (lines extra : List Str) (st0 st1 : StatusState),
      List.foldlM statusStep st0 lines = some st1 →
      ∃ st2, List.foldlM statusStep st0 (lines ++ extra) = some st2 ∧
        ∃ suf, st2.apps = st1.apps ++ suf) := by
  constructor
  · intro o u h
    rcases parse_scoop_updates_info_fold h with hu | ⟨s, st, _, hf, hu⟩
    · rw [hu]; exact List.nodup_nil
    · rw [hu]
      exact (statusFold_nodup _ _ _ hf ⟨List.nodup_nil, by simp⟩).1
  · intro lines extra st0 st1 h
    rcases h2 : List.foldlM statusStep st1 extra with _ | st2
    · have := foldlM_option_total statusStep statusStep_total extra st1
      rw [h2] at this; simp at this
    · refine ⟨st2, ?_, ?_⟩
      · rw [List.foldlM_append, h]
        exact h2
      · exact foldlM_option_rel statusStep
          (fun s s' => ∃ suf, s'.apps = s.apps ++ suf)
          (fun s => ⟨[], by simp⟩)
          (fun a b c ⟨s1, h1⟩ ⟨s2, h2⟩ => ⟨s1 ++ s2, by rw [h2, h1, List.append_assoc]⟩)
          (fun s a s' hstep => by
            rcases statusStep_cases s a s' hstep with ⟨_, hb⟩ | ⟨au, _, _, _, _, _, hb⟩
            · exact ⟨[], by simp [hb]⟩
            · exact ⟨[au], hb⟩)
          extra st1 st2 h2

/-- Concrete instantiation of `status_dedup_C2`. -/
theorem status_dedup_C2_witness :
    ((⟨none, [⟨str "Foo", str "1.0", str "2.0"⟩]⟩ : UpdatesInfo).apps.map
      (fun a => a.name)).Nodup ∧
    (∃ st2, List.foldlM statusStep ⟨none, false, [], []⟩
        ([str "----"] ++ [str "Foo 1.0 2.0"]) = some st2 ∧
      ∃ suf, st2.apps = (⟨none, true, [], []⟩ : StatusState).apps ++ suf) :=
  ⟨status_dedup_C2.1 (some (str "----\nFoo 1.0 2.0"))
      ⟨none, [⟨str "Foo", str "1.0", str "2.0"⟩]⟩ (by decide),
    status_dedup_C2.2 [str "----"] [str "Foo 1.0 2.0"]
      ⟨none, false, [], []⟩ ⟨none, true, [], []⟩ (by decide)⟩

/-! ## Order properties of the three-tier sort key -/

theorem strLtB_trans : ∀ s t u : Str, strLtB s t = true → strLtB t u = true →
    strLtB s u = true := by
  intro s
  induction s with
  | nil =>
    intro t u hst htu
    cases t with
    | nil => simp [strLtB] at hst
    | cons b bs =>
      cases u with
      | nil => simp [strLtB] at htu
      | cons c cs => simp [strLtB]
  | cons a as ih =>
    intro t u hst htu
    cases t with
    | nil => simp [strLtB] at hst
    | cons b bs =>
      cases u with
      | nil => simp [strLtB] at htu
      | cons c cs =>
        simp only [strLtB] at hst htu ⊢
        by_cases hab : a < b
        · by_cases hbc : b < c
          · rw [if_pos (lt_trans hab hbc)]
          · by_cases hcb : c < b
            · rw [if_neg hbc, if_pos hcb] at htu
              cases htu
            · have heq : b = c := le_antisymm (le_of_not_lt hcb) (le_of_not_lt hbc)
              subst heq
              rw [if_pos hab]
        · by_cases hba : b < a
          · rw [if_neg hab, if_pos hba] at hst
            cases hst
          · have heq : a = b := le_antisymm (le_of_not_lt hba) (le_of_not_lt hab)
            subst heq
            rw [if_neg (lt_irrefl a), if_neg (lt_irrefl a)] at hst
            by_cases hac : a < c
            · rw [if_pos hac]
            · by_cases hca : c < a
              · rw [if_neg hac, if_pos hca] at htu
                cases htu
              · have heq2 : a = c := le_antisymm (le_of_not_lt hca) (le_of_not_lt hac)
                subst heq2
                rw [if_neg (lt_irrefl a), if_neg (lt_irrefl a)] at htu ⊢
                exact ih bs cs hst htu

theorem strLtB_eq_of_not_lt : ∀ s t : Str, strLtB s t = false →
    strLtB t s = false → s = t := by
  intro s
  induction s with
  | nil =>
    intro t hst hts
    cases t with
    | nil => rfl
    | cons b bs => simp [strLtB] at hst
  | cons a as ih =>
    intro t hst hts
    cases t with
    | nil => simp [strLtB] at hts
    | cons b bs =>
      simp only [strLtB] at hst hts
      by_cases hab : a < b
      · rw [if_pos hab] at hst
        cases hst
      · by_cases hba : b < a
        · rw [if_pos hba] at hts
          cases hts
        · have heq : a = b := le_antisymm (le_of_not_lt hba) (le_of_not_lt hab)
          subst heq
          rw [if_neg (lt_irrefl a), if_neg (lt_irrefl a)] at hst
          rw [if_neg (lt_irrefl a), if_neg (lt_irrefl a)] at hts
          rw [ih bs hst hts]

theorem strLtB_irrefl : ∀ s : Str, strLtB s s = false := by
  intro s
  induction s with
  | nil => rfl
  | cons a as ih => simp [strLtB, lt_irrefl, ih]

instance : IsTotal ManagedApp ManagedRel := by
  constructor
  intro a b
  simp only [ManagedRel, managedLe, keyLe, Bool.or_eq_true, Bool.and_eq_true,
    decide_eq_true_eq, Bool.not_eq_eq_eq_not, Bool.not_true]
  rcases lt_trichotomy (sortKey a).1 (sortKey b).1 with h | h | h
  · exact Or.inl (Or.inl h)
  · rcases hlt : strLtB (sortKey b).2 (sortKey a).2
    · exact Or.inl (Or.inr ⟨h, rfl⟩)
    · have h2 : strLtB (sortKey a).2 (sortKey b).2 = false := by
        rcases h3 : strLtB (sortKey a).2 (sortKey b).2
        · rfl
        · have h4 := strLtB_trans _ _ _ hlt h3
          rw [strLtB_irrefl] at h4
          cases h4
      exact Or.inr (Or.inr ⟨h.symm, h2⟩)
  · exact Or.inr (Or.inl h)

instance : IsTrans ManagedApp ManagedRel := by
  constructor
  intro a b c hab hbc
  simp only [ManagedRel, managedLe, keyLe, Bool.or_eq_true, Bool.and_eq_true,
    decide_eq_true_eq, Bool.not_eq_eq_eq_not, Bool.not_true] at hab hbc ⊢
  rcases hab with h1 | ⟨h1, h1s⟩
  · rcases hbc with h2 | ⟨h2, h2s⟩
    · exact Or.inl (lt_trans h1 h2)
    · exact Or.inl (h2 ▸ h1)
  · rcases hbc with h2 | ⟨h2, h2s⟩
    · exact Or.inl (h1 ▸ h2)
    · refine Or.inr ⟨h1.trans h2, ?_⟩
      rcases h3 : strLtB (sortKey c).2 (sortKey a).2
      · rfl
      · exfalso
        rcases h4 : strLtB (sortKey b).2 (sortKey c).2
        · have h5 := strLtB_eq_of_not_lt _ _ h4 h2s
          rw [h5] at h1s
          rw [h1s] at h3
          cases h3
        · have h5 := strLtB_trans _ _ _ h4 h3
          rw [h5] at h1s
          cases h1s

/-! ## Token and name facts needed for the reconciliation invariants -/

theorem toLower_ne_space (c : Char) (h : c ≠ ' ') : Char.toLower c ≠ ' ' := by
  unfold Char.toLower
  simp only []
  by_cases hc : c.toNat ≥ 65 ∧ c.toNat ≤ 90
  · rw [if_pos hc]
    intro hcontra
    have h2 : (Char.ofNat (c.toNat + 32)).toNat = (' ' : Char).toNat := by
      rw [hcontra]
    have hval : Nat.isValidChar (c.toNat + 32) := by left; omega
    have h3 : (Char.ofNat (c.toNat + 32)).toNat = c.toNat + 32 := by
      rw [Char.ofNat, dif_pos (by simpa [UInt32.isValidChar] using hval)]
      rfl
    rw [h3] at h2
    have h4 : (' ' : Char).toNat = 32 := rfl
    omega
  · rw [if_neg hc]
    exact h

/-- Lowercasing a space-free string cannot produce the (space-containing)
lowercased synthetic self-entry name. -/
theorem lowerStr_ne_self_name {l : Str} (h : ∀ ch ∈ l, ch ≠ ' ') :
    lowerStr l ≠ lowerStr (str "Scoop (Self-Update)") := by
  intro hcontra
  have hsp : ' ' ∈ lowerStr (str "Scoop (Self-Update)") := by decide
  rw [← hcontra] at hsp
  simp only [lowerStr, List.mem_map] at hsp
  obtain ⟨c, hc, hceq⟩ := hsp
  exact toLower_ne_space c (h c hc) hceq

/-- The first token produced by `splitWSMax (n+1)` is whitespace-free. -/
theorem splitWSMax_head_no_space {n : Nat} {l t : Str} {ts : List Str}
    (h : splitWSMax (n + 1) l = t :: ts) : ∀ ch ∈ t, ch ≠ ' ' := by
  simp only [splitWSMax] at h
  rcases hd : l.dropWhile isPySpace with _ | ⟨c, cs⟩ <;> rw [hd] at h
  · cases h
  · injection h with h1 _
    intro ch hch hsp
    rw [← h1] at hch
    have := List.mem_takeWhile_imp hch
    rw [hsp] at this
    simp [isPySpace] at this

theorem listRow_name {parts : List Str} {rec : ListRec}
    (h : listRow parts = some (some rec)) : parts.get? 0 = some rec.name := by
  obtain ⟨name, version, source, info⟩ := rec
  rcases parts with _ | ⟨a, _ | ⟨b, rest⟩⟩
  · simp [listRow] at h
  · simp [listRow] at h
  · rcases rest with _ | ⟨c, _ | ⟨d, rest2⟩⟩ <;>
    · simp [listRow, List.get?] at h
      simp [List.get?, h.1]

/-- Case analysis on one list-parser step: either the record list is
unchanged, or exactly one record is appended whose name is the first token
of the tokenized line (hence whitespace-free). -/
theorem listStep_cases (st : Bool × Bool × List ListRec) (line : Str)
    (st' : Bool × Bool × List ListRec) (h : listStep st line = some st') :
    st'.2.2 = st.2.2 ∨
    ∃ (rec : ListRec) (ts : List Str),
      splitWSMax 3 (pyStrip (removeAnsiStr line)) = rec.name :: ts ∧
      st'.2.2 = st.2.2 ++ [rec] := by
  simp only [listStep] at h
  split at h
  · left; injection h with h; rw [← h]
  split at h
  · left; injection h with h; rw [← h]
  split at h
  · left; injection h with h; rw [← h]
  split at h
  · left; injection h with h; rw [← h]
  · rcases hr : listRow (splitWSMax 3 (pyStrip (removeAnsiStr line))) with _ | r <;>
      rw [hr] at h
    · cases h
    · rcases r with _ | rec
      · left
        replace h : some (st.1, st.2.1, st.2.2 ++ (none : Option ListRec).toList) =
          some st' := h
        injection h with h
        rw [← h]
        simp
      · right
        have hn := listRow_name hr
        rcases hp : splitWSMax 3 (pyStrip (removeAnsiStr line)) with _ | ⟨t, ts⟩ <;>
          rw [hp] at hn
        · cases hn
        · simp only [List.get?] at hn
          injection hn with hn
          refine ⟨rec, ts, by rw [hn], ?_⟩
          replace h : some (st.1, st.2.1, st.2.2 ++ [rec]) = some st' := h
          injection h with h
          rw [← h]

theorem foldl_inv_mem {σ α : Type} (f : σ → α → σ) (P : σ → Prop) :
    ∀ (l : List α), (∀ s a, a ∈ l → P s → P (f s a)) →
      ∀ (s : σ), P s → P (l.foldl f s) := by
  intro l
  induction l with
  | nil => intro _ s hp; simpa using hp
  | cons a l ih =>
    intro hstep s hp
    rw [List.foldl_cons]
    exact ih (fun s' a' ha' => hstep s' a' (List.mem_cons_of_mem a ha'))
      (f s a) (hstep s a (List.mem_cons_self a l) hp)

theorem foldl_rel {σ α : Type} (f : σ → α → σ) (R : σ → σ → Prop)
    (hrefl : ∀ s, R s s) (htrans : ∀ a b c, R a b → R b c → R a c)
    (hstep : ∀ s a, R s (f s a)) :
    ∀ (l : List α) (s : σ), R s (l.foldl f s) := by
  intro l
  induction l with
  | nil => intro s; simpa using hrefl s
  | cons a l ih =>
    intro s
    rw [List.foldl_cons]
    exact htrans _ _ _ (hstep s a) (ih (f s a))

/-- Decompose a successful `parse_scoop_list_apps` run into the underlying
fold. -/
theorem parse_scoop_list_apps_fold {o : Option Str} {ins : List ListRec}
    (h : parse_scoop_list_apps o = some ins) :
    ins = [] ∨
    ∃ (s : Str) (st : Bool × Bool × List ListRec), o = some s ∧
      List.foldlM listStep (false, false, []) (splitNL (pyStrip s)) = some st ∧
      ins = st.2.2 := by
  rcases o with _ | s
  · left
    simp only [parse_scoop_list_apps, Option.some.injEq] at h
    exact h.symm
  · simp only [parse_scoop_list_apps] at h
    split at h
    · left
      injection h with h
      exact h.symm
    · right
      rcases hf : List.foldlM listStep (false, false, []) (splitNL (pyStrip s))
          with _ | st
      · rw [hf] at h; cases h
      · rw [hf] at h
        refine ⟨s, st, rfl, hf, ?_⟩
        simpa using h.symm

/-- Every record name produced by list-mode parsing is whitespace-free
(it is the first token of a whitespace tokenization). -/
theorem parse_list_names_no_space {o : Option Str} {ins : List ListRec}
    (h : parse_scoop_list_apps o = some ins) :
    ∀ r ∈ ins, ∀ ch ∈ r.name, ch ≠ ' ' := by
  rcases parse_scoop_list_apps_fold h with hnil | ⟨s, st, _, hf, hins⟩
  · rw [hnil]; intro r hr; cases hr
  · rw [hins]
    refine foldlM_option_inv listStep
      (fun st => ∀ r ∈ st.2.2, ∀ ch ∈ r.name, ch ≠ ' ') ?_
      (splitNL (pyStrip s)) (false, false, []) st hf (by intro r hr; cases hr)
    intro s1 a s2 hstep hp
    rcases listStep_cases s1 a s2 hstep with heq | ⟨rec, ts, hsplit, happ⟩
    · rw [heq]; exact hp
    · rw [happ]
      intro r hr
      rcases List.mem_append.mp hr with hr | hr
      · exact hp r hr
      · simp only [List.mem_singleton] at hr
        rw [hr]
        exact splitWSMax_head_no_space hsplit

/-- One status step either leaves the self-update slot unchanged or sets
it to the two groups captured by the announcement regex on that line. -/
theorem statusStep_scoop (st : StatusState) (line : Str) (st' : StatusState)
    (h : statusStep st line = some st') :
    st'.scoop = st.scoop ∨
    ∃ g1 g2, searchScoopUpd line = some (g1, g2) ∧ st'.scoop = some ⟨g1, g2⟩ := by
  rcases hs : searchScoopUpd line with _ | ⟨g1, g2⟩
  · simp only [statusStep, hs] at h
    split at h
    · left; injection h with h; rw [← h]
    split at h
    · left; injection h with h; rw [← h]
    split at h
    · left; injection h with h; rw [← h]
    split at h
    · left; injection h with h; rw [← h]
    · rcases hr : statusRowClassify (splitWS line) with _ | r <;> rw [hr] at h
      · cases h
      · rcases r with _ | au
        · left
          replace h : some st = some st' := h
          injection h with h
          rw [← h]
        · replace h : (if lowerStr au.name ≠ str "scoop" && !(st.added.contains au.name) then
              (pure ⟨st.scoop, st.dataStarted, st.added ++ [au.name], st.apps ++ [au]⟩ :
                Option StatusState)
            else pure st) = some st' := h
          split at h <;>
          · left
            injection h with h
            rw [← h]
  · simp only [statusStep, hs] at h
    split at h
    · left; injection h with h; rw [← h]
    · right
      refine ⟨g1, g2, rfl, ?_⟩
      injection h with h
      rw [← h]

/-- The second group captured by the self-update announcement regex
consists only of characters of the version class. -/
theorem matchScoopUpd_chars {l g1 g2 : Str}
    (h : matchScoopUpd l = some (g1, g2)) : ∀ ch ∈ g2, isVerChar ch = true := by
  simp only [matchScoopUpd] at h
  split at h
  · split at h
    · split at h
      · rename_i p hp
        split at h
        · injection h with h
          injection h with h1 h2
          intro ch hch
          rw [← h2] at hch
          exact List.mem_takeWhile_imp (List.take_subset p _ hch)
        · cases h
      · cases h
    · cases h
  · cases h

theorem searchScoopUpd_chars : ∀ {l g1 g2 : Str},
    searchScoopUpd l = some (g1, g2) → ∀ ch ∈ g2, isVerChar ch = true := by
  intro l
  induction l with
  | nil => intro g1 g2 h; simp [searchScoopUpd] at h
  | cons c cs ih =>
    intro g1 g2 h
    simp only [searchScoopUpd] at h
    rcases hm : matchScoopUpd (c :: cs) with _ | p <;> rw [hm] at h
    · exact ih h
    · rcases p with ⟨a, b⟩
      injection h with h
      injection h with h1 h2
      rw [← h2]
      exact matchScoopUpd_chars hm

/-- Facts about a successfully parsed status output: every app-update
candidate has a non-sentinel new version differing from its current
version, and the self-update versions consist of version-class
characters. -/
theorem parse_status_props {o : Option Str} {u : UpdatesInfo}
    (h : parse_scoop_updates_info o = some u) :
    (∀ a ∈ u.apps, lowerStr a.new ∉ sentinelVals ∧ a.current ≠ a.new) ∧
    (∀ su, u.scoop = some su → ∀ ch ∈ su.new, isVerChar ch = true) := by
  rcases parse_scoop_updates_info_fold h with hu | ⟨s, st, _, hf, hu⟩
  · rw [hu]
    exact ⟨fun a ha => absurd ha (List.not_mem_nil a), fun su hsu => by cases hsu⟩
  · rw [hu]
    refine foldlM_option_inv statusStep
      (fun st => (∀ a ∈ st.apps, lowerStr a.new ∉ sentinelVals ∧ a.current ≠ a.new) ∧
        (∀ su, st.scoop = some su → ∀ ch ∈ su.new, isVerChar ch = true)) ?_
      _ _ _ hf
      ⟨fun a ha => absurd ha (List.not_mem_nil a), fun su hsu => by cases hsu⟩
    intro s1 a s2 hstep hp
    constructor
    · intro x hx
      rcases statusStep_cases s1 a s2 hstep with ⟨_, hb⟩ | ⟨au, _, _, hsent, hcur, _, hb⟩
      · rw [hb] at hx
        exact hp.1 x hx
      · rw [hb] at hx
        rcases List.mem_append.mp hx with hx | hx
        · exact hp.1 x hx
        · simp only [List.mem_singleton] at hx
          rw [hx]
          exact ⟨hsent, hcur⟩
    · intro su hsu
      rcases statusStep_scoop s1 a s2 hstep with heq | ⟨g1, g2, hg, hset⟩
      · rw [heq] at hsu
        exact hp.2 su hsu
      · rw [hset] at hsu
        injection hsu with hsu
        rw [← hsu]
        exact searchScoopUpd_chars hg

theorem appUpdatesDict_mem_aux : ∀ (apps : List AppUpd) (k : Str)
    (acc : Option AppUpd) (ud : AppUpd),
    apps.foldl (fun acc a => if lowerStr a.name = k then some a else acc) acc =
      some ud →
    ud ∈ apps ∨ acc = some ud := by
  intro apps
  induction apps with
  | nil => intro k acc ud h; right; simpa using h
  | cons a as ih =>
    intro k acc ud h
    rw [List.foldl_cons] at h
    rcases ih k _ ud h with hmem | hacc
    · left; exact List.mem_cons_of_mem a hmem
    · split at hacc
      · left
        injection hacc with hacc
        rw [← hacc]
        exact List.mem_cons_self a as
      · right; exact hacc

theorem appUpdatesDict_mem {apps : List AppUpd} {k : Str} {ud : AppUpd}
    (h : appUpdatesDict apps k = some ud) : ud ∈ apps := by
  rcases appUpdatesDict_mem_aux apps k none ud h with hmem | hacc
  · exact hmem
  · cases hacc

/-- Case analysis on one reconciliation step: either the state is
unchanged (the lowercased name was already processed), or exactly one
candidate is appended — never a self entry — whose fields come either from
a matching update candidate (`has_update = true`) or from the list row
itself with the literal "N/A" available version (`has_update = false`). -/
theorem combineStep_cases (updApps : List AppUpd)
    (st : List ManagedApp × List Str) (app : ListRec) :
    combineStep updApps st app = st ∨
    (lowerStr app.name ∉ st.2 ∧
     ∃ cand : ManagedApp,
       combineStep updApps st app = (st.1 ++ [cand], st.2 ++ [lowerStr app.name]) ∧
       cand.name = app.name ∧ cand.is_scoop_self = false ∧
       ((cand.has_update = false ∧ cand.new_version = str "N/A") ∨
        (cand.has_update = true ∧
          ∃ ud, ud ∈ updApps ∧ cand.new_version = ud.new))) := by
  simp only [combineStep]
  split
  · left; rfl
  · rename_i hcont
    right
    have hnotmem : lowerStr app.name ∉ st.2 := by
      intro hmem
      have h2 : (st.2.any fun x => lowerStr app.name == x) = true :=
        List.any_eq_true.mpr ⟨lowerStr app.name, hmem, by simp⟩
      rw [List.contains_eq_any_beq] at hcont
      exact hcont h2
    refine ⟨hnotmem, ?_⟩
    rcases hud : appUpdatesDict updApps (lowerStr app.name) with _ | ud
    · exact ⟨_, rfl, rfl, rfl, Or.inl ⟨rfl, rfl⟩⟩
    · exact ⟨_, rfl, rfl, rfl, Or.inr ⟨rfl, ud, appUpdatesDict_mem hud, rfl⟩⟩

/-- Invariant of the reconciliation fold: candidate lowercased names are
pairwise distinct; every non-self candidate's lowercased name is in the
processed set; every self candidate is the synthetic entry built from the
parsed self-update; and every candidate is the self entry, or an
up-to-date row with the literal "N/A" available version, or an updated row
whose available version comes from an update candidate. -/
def ReconInv (u : UpdatesInfo) (st : List ManagedApp × List Str) : Prop :=
  (st.1.map (fun x => lowerStr x.name)).Nodup ∧
  (∀ x ∈ st.1, x.is_scoop_self = false → lowerStr x.name ∈ st.2) ∧
  (∀ x ∈ st.1, x.is_scoop_self = true →
    ∃ su, u.scoop = some su ∧ x = scoopSelfEntry su) ∧
  (∀ x ∈ st.1, x.is_scoop_self = true ∨
    (x.has_update = false ∧ x.new_version = str "N/A") ∨
    (x.has_update = true ∧ ∃ ud, ud ∈ u.apps ∧ x.new_version = ud.new))

theorem reconInv_init (u : UpdatesInfo) :
    ReconInv u
      ((match u.scoop with | some su => [scoopSelfEntry su] | none => []),
       (match u.scoop with | some _ => [str "scoop"] | none => [])) := by
  rcases hu : u.scoop with _ | su
  · exact ⟨by simp, by simp, by simp, by simp⟩
  · refine ⟨by simp, ?_, ?_, ?_⟩
    · intro x hx hxf
      simp only [List.mem_singleton] at hx
      rw [hx] at hxf
      cases hxf
    · intro x hx _
      simp only [List.mem_singleton] at hx
      exact ⟨su, hu, hx⟩
    · intro x hx
      left
      simp only [List.mem_singleton] at hx
      rw [hx]
      rfl

theorem combineFold_inv (u : UpdatesInfo) (ins : List ListRec)
    (hname : ∀ r ∈ ins, ∀ ch ∈ r.name, ch ≠ ' ')
    (init : List ManagedApp × List Str) (hinit : ReconInv u init) :
    ReconInv u (ins.foldl (combineStep u.apps) init) := by
  refine foldl_inv_mem (combineStep u.apps) (ReconInv u) ins ?_ init hinit
  intro st app happ hp
  rcases combineStep_cases u.apps st app with heq | ⟨hnm, cand, heq, hcname, hcself, hcprop⟩
  · rw [heq]; exact hp
  · rw [heq]
    obtain ⟨hnd, hmem2, hself, hprop⟩ := hp
    refine ⟨?_, ?_, ?_, ?_⟩
    · rw [List.map_append, List.nodup_append]
      refine ⟨hnd, by simp, ?_⟩
      intro y hy
      simp only [List.map_cons, List.map_nil, List.mem_singleton]
      intro hyc
      simp only [List.mem_map] at hy
      obtain ⟨x, hx, hxy⟩ := hy
      rcases hbx : x.is_scoop_self
      · have h1 := hmem2 x hx hbx
        rw [hxy, hyc, hcname] at h1
        exact hnm h1
      · obtain ⟨su, _, hxeq⟩ := hself x hx hbx
        have hxn : x.name = str "Scoop (Self-Update)" := by rw [hxeq]; rfl
        rw [hxn] at hxy
        rw [← hxy, hcname] at hyc
        exact lowerStr_ne_self_name (hname app happ) hyc.symm
    · intro x hx hxf
      rcases List.mem_append.mp hx with hx | hx
      · exact List.mem_append_left _ (hmem2 x hx hxf)
      · simp only [List.mem_singleton] at hx
        rw [hx, hcname]
        exact List.mem_append_right _ (by simp)
    · intro x hx hxt
      rcases List.mem_append.mp hx with hx | hx
      · exact hself x hx hxt
      · simp only [List.mem_singleton] at hx
        rw [hx, hcself] at hxt
        cases hxt
    · intro x hx
      rcases List.mem_append.mp hx with hx | hx
      · exact hprop x hx
      · simp only [List.mem_singleton] at hx
        rw [hx]
        right
        exact hcprop

theorem build_managed_apps_candidates_eq (u : UpdatesInfo) (ins : List ListRec) :
    build_managed_apps_candidates u ins =
      List.insertionSort ManagedRel
        ((ins.foldl (combineStep u.apps)
          ((match u.scoop with | some su => [scoopSelfEntry su] | none => []),
           (match u.scoop with | some _ => [str "scoop"] | none => []))).1) := rfl

/-- In a sorted inventory containing the synthetic self entry, in which
every self-flagged record is that synthetic entry, the first record is the
synthetic entry. -/
theorem sorted_head_self {out : List ManagedApp} {su : ScoopUpd}
    (hs : List.Sorted ManagedRel out) (hmem : scoopSelfEntry su ∈ out)
    (hself : ∀ x ∈ out, x.is_scoop_self = true → x = scoopSelfEntry su) :
    out.head? = some (scoopSelfEntry su) := by
  cases out with
  | nil => cases hmem
  | cons hd tl =>
    simp only [List.head?_cons, Option.some.injEq]
    rcases List.mem_cons.mp hmem with h | h
    · exact h.symm
    · have hrel : ManagedRel hd (scoopSelfEntry su) :=
        (List.sorted_cons.mp hs).1 _ h
      have hsc : hd.is_scoop_self = true := by
        by_contra hfalse
        rw [Bool.not_eq_true] at hfalse
        simp only [ManagedRel, managedLe, keyLe, sortKey, scoopSelfEntry, hfalse,
          if_false, if_true, Bool.or_eq_true, Bool.and_eq_true,
          decide_eq_true_eq] at hrel
        rcases hhu : hd.has_update <;> rw [hhu] at hrel <;> simp at hrel
      exact hself hd (List.mem_cons_self hd tl) hsc

/-- C6: for all parsed status and list outputs, the reconciled inventory
is sorted by the three-tier key (self entry in tier 0, records with an
update in tier 1, the rest in tier 2; case-insensitively by name within a
tier), and whenever the status text carries a self-update announcement,
the first record of the reconciled inventory is the synthetic self entry
(`isSelfEntry = true`) whose current and new versions are exactly the two
versions captured from that announcement. -/
theorem reconcile_sort_C6 (stO lsO : Option Str) (u : UpdatesInfo)
    (ins : List ListRec) (hst : parse_scoop_updates_info stO = some u)
    (hls : parse_scoop_list_apps lsO = some ins) :
    List.Sorted ManagedRel (build_managed_apps_candidates u ins) ∧
    (∀ a b : Str, u.scoop = some ⟨a, b⟩ →
      (build_managed_apps_candidates u ins).head? =
        some (scoopSelfEntry ⟨a, b⟩)) := by
  have hname := parse_list_names_no_space hls
  have hinv := combineFold_inv u ins hname _ (reconInv_init u)
  rw [build_managed_apps_candidates_eq]
  have hperm := List.perm_insertionSort ManagedRel
    ((ins.foldl (combineStep u.apps)
      ((match u.scoop with | some su => [scoopSelfEntry su] | none => []),
       (match u.scoop with | some _ => [str "scoop"] | none => []))).1)
  constructor
  · exact List.sorted_insertionSort ManagedRel _
  · intro a b hu
    have hsub := foldl_rel (combineStep u.apps)
      (fun s s' => ∃ suf, s'.1 = s.1 ++ suf) (fun s => ⟨[], by simp⟩)
      (fun x y z ⟨s1, h1⟩ ⟨s2, h2⟩ => ⟨s1 ++ s2, by rw [h2, h1, List.append_assoc]⟩)
      (fun s ap => by
        rcases combineStep_cases u.apps s ap with heq | ⟨_, cand, heq, _⟩
        · exact ⟨[], by rw [heq]; simp⟩
        · exact ⟨[cand], by rw [heq]⟩)
      ins
      ((match u.scoop with | some su => [scoopSelfEntry su] | none => []),
       (match u.scoop with | some _ => [str "scoop"] | none => []))
    obtain ⟨suf, hsuf⟩ := hsub
    have hmem : scoopSelfEntry ⟨a, b⟩ ∈
        (ins.foldl (combineStep u.apps)
          ((match u.scoop with | some su => [scoopSelfEntry su] | none => []),
           (match u.scoop with | some _ => [str "scoop"] | none => []))).1 := by
      rw [hsuf, hu]
      simp
    refine sorted_head_self (List.sorted_insertionSort ManagedRel _)
      (hperm.mem_iff.mpr hmem) ?_
    intro x hx hxt
    obtain ⟨su, hsu, hxeq⟩ := hinv.2.2.1 x (hperm.mem_iff.mp hx) hxt
    rw [hu] at hsu
    injection hsu with hsu
    rw [hxeq, ← hsu]

/-- Concrete instantiation of `reconcile_sort_C6`. -/
theorem reconcile_sort_C6_witness :
    List.Sorted ManagedRel (build_managed_apps_candidates
      ⟨some ⟨str "1.0", str "2.0"⟩, [⟨str "foo", str "1.0", str "2.0"⟩]⟩
      [⟨str "foo", str "1.0", str "main", []⟩,
       ⟨str "bar", str "2.0", str "main", []⟩]) ∧
    (build_managed_apps_candidates
      ⟨some ⟨str "1.0", str "2.0"⟩, [⟨str "foo", str "1.0", str "2.0"⟩]⟩
      [⟨str "foo", str "1.0", str "main", []⟩,
       ⟨str "bar", str "2.0", str "main", []⟩]).head? =
      some (scoopSelfEntry ⟨str "1.0", str "2.0"⟩) := by
  have h := reconcile_sort_C6
    (some (str "Scoop can be updated from version 1.0 to 2.0.\n----\nfoo 1.0 2.0"))
    (some (str "----\nfoo 1.0 main\nbar 2.0 main"))
    ⟨some ⟨str "1.0", str "2.0"⟩, [⟨str "foo", str "1.0", str "2.0"⟩]⟩
    [⟨str "foo", str "1.0", str "main", []⟩, ⟨str "bar", str "2.0", str "main", []⟩]
    (by decide) (by decide)
  exact ⟨h.1, h.2 (str "1.0") (str "2.0") (by decide)⟩

/-- C7: for all parsed status and list outputs, the reconciled inventory
contains at most one record per case-insensitive name (the lowercased
names are pairwise distinct), and every record with `isSelfEntry = true`
is the synthetic manager self-update entry built from the parsed
self-update announcement — never a record produced from an ordinary
parsed list row. -/
theorem reconcile_unique_C7 (stO lsO : Option Str) (u : UpdatesInfo)
    (ins : List ListRec) (hst : parse_scoop_updates_info stO = some u)
    (hls : parse_scoop_list_apps lsO = some ins) :
    ((build_managed_apps_candidates u ins).map (fun x => lowerStr x.name)).Nodup ∧
    (∀ r ∈ build_managed_apps_candidates u ins, r.is_scoop_self = true →
      ∃ su, u.scoop = some su ∧ r = scoopSelfEntry su) := by
  have hname := parse_list_names_no_space hls
  have hinv := combineFold_inv u ins hname _ (reconInv_init u)
  rw [build_managed_apps_candidates_eq]
  have hperm := List.perm_insertionSort ManagedRel
    ((ins.foldl (combineStep u.apps)
      ((match u.scoop with | some su => [scoopSelfEntry su] | none => []),
       (match u.scoop with | some _ => [str "scoop"] | none => []))).1)
  constructor
  · exact (List.Perm.nodup_iff (hperm.map (fun x => lowerStr x.name))).mpr hinv.1
  · intro r hr hrt
    exact hinv.2.2.1 r (hperm.mem_iff.mp hr) hrt

/-- Concrete instantiation of `reconcile_unique_C7`: list output mentions
"Foo" and status output "foo"; the reconciled inventory has exactly one
record for that name. -/
theorem reconcile_unique_C7_witness :
    ((build_managed_apps_candidates
      ⟨none, [⟨str "foo", str "1.0", str "2.0"⟩]⟩
      [⟨str "Foo", str "1.0", str "main", []⟩]).map
        (fun x => lowerStr x.name)).Nodup ∧
    (build_managed_apps_candidates
      ⟨none, [⟨str "foo", str "1.0", str "2.0"⟩]⟩
      [⟨str "Foo", str "1.0", str "main", []⟩]).length = 1 := by
  have h := reconcile_unique_C7
    (some (str "----\nfoo 1.0 2.0"))
    (some (str "----\nFoo 1.0 main"))
    ⟨none, [⟨str "foo", str "1.0", str "2.0"⟩]⟩
    [⟨str "Foo", str "1.0", str "main", []⟩]
    (by decide) (by decide)
  exact ⟨h.1, by decide⟩

/-- C10: in every reconciled inventory built from parsed status and list
outputs, a record has `hasUpdate = false` exactly when its available
version is the literal "N/A": up-to-date rows are published with "N/A",
while the self entry and every record built from an update candidate carry
`hasUpdate = true` with a concrete version taken from the candidate, which
is never "N/A". -/
theorem inventory_na_C10 (stO lsO : Option Str) (u : UpdatesInfo)
    (ins : List ListRec) (hst : parse_scoop_updates_info stO = some u)
    (hls : parse_scoop_list_apps lsO = some ins) :
    ∀ r ∈ build_managed_apps_candidates u ins,
      (r.has_update = false ↔ r.new_version = str "N/A") := by
  have hname := parse_list_names_no_space hls
  have hinv := combineFold_inv u ins hname _ (reconInv_init u)
  have hprops := parse_status_props hst
  rw [build_managed_apps_candidates_eq]
  have hperm := List.perm_insertionSort ManagedRel
    ((ins.foldl (combineStep u.apps)
      ((match u.scoop with | some su => [scoopSelfEntry su] | none => []),
       (match u.scoop with | some _ => [str "scoop"] | none => []))).1)
  intro r hr
  have hr2 := hperm.mem_iff.mp hr
  rcases hinv.2.2.2 r hr2 with hselfr | ⟨hfu, hna⟩ | ⟨htu, ud, hudmem, hudnew⟩
  · obtain ⟨su, hsu, hreq⟩ := hinv.2.2.1 r hr2 hselfr
    have hchars := hprops.2 su hsu
    constructor
    · intro hfalse
      rw [hreq] at hfalse
      cases hfalse
    · intro hna
      exfalso
      have hnew : r.new_version = su.new := by rw [hreq]; rfl
      rw [hnew] at hna
      have hslash := hchars '/' (by rw [hna]; decide)
      cases hslash
  · rw [hfu, hna]
    simp
  · constructor
    · intro hfalse
      rw [htu] at hfalse
      cases hfalse
    · intro hna
      exfalso
      have hsent := (hprops.1 ud hudmem).1
      rw [hudnew] at hna
      rw [hna] at hsent
      exact hsent (by decide)

/-- Concrete instantiation of `inventory_na_C10` at the up-to-date record
"bar" of a concrete reconciled inventory. -/
theorem inventory_na_C10_witness :
    (⟨str "bar", str "bar", str "2.0", str "N/A", str "Installed", false,
        false, str "main"⟩ : ManagedApp).has_update = false ↔
    (⟨str "bar", str "bar", str "2.0", str "N/A", str "Installed", false,
        false, str "main"⟩ : ManagedApp).new_version = str "N/A" :=
  inventory_na_C10
    (some (str "----\nfoo 1.0 2.0"))
    (some (str "----\nfoo 1.0 main\nbar 2.0 main"))
    ⟨none, [⟨str "foo", str "1.0", str "2.0"⟩]⟩
    [⟨str "foo", str "1.0", str "main", []⟩, ⟨str "bar", str "2.0", str "main", []⟩]
    (by decide) (by decide)
    ⟨str "bar", str "bar", str "2.0", str "N/A", str "Installed", false,
      false, str "main"⟩
    (by decide)

/-! ## C1 and C4: the refresh pipeline -/

/-- Exhaustive shape analysis of one refresh run: the worker never raises,
and the emitted event list takes one of four forms according to which
command (if any) failed. -/
theorem refresh_shape (uo so lo : CmdOutcome) :
    ∃ evs, refresh_manage_apps_list uo so lo = some evs ∧
    ((uo.code ≠ 0 ∧ evs = [.clearList,
        .metadataError (pyOrDetails uo.stderr uo.stdout
          (str "Unknown error during 'scoop update'.")), .clearList]) ∨
     (uo.code = 0 ∧ so.code ≠ 0 ∧ evs = [.clearList,
        .statusError (pyOrDetails so.stderr so.stdout
          (str "Unknown error during 'scoop status'.")), .clearList]) ∨
     (uo.code = 0 ∧ so.code = 0 ∧ lo.code ≠ 0 ∧
        evs = [.clearList] ++
          (if so.stderr ≠ [] && optFalsy so.stdout then
            [.statusWarning so.stderr] else []) ++
          [.listError (pyOrDetails lo.stderr lo.stdout
            (str "Unknown error during 'scoop list'.")), .clearList]) ∨
     (uo.code = 0 ∧ so.code = 0 ∧ lo.code = 0 ∧
        ∃ up insd, parse_scoop_updates_info so.stdout = some up ∧
          parse_scoop_list_apps lo.stdout = some insd ∧
          evs = [.clearList] ++
            (if so.stderr ≠ [] && optFalsy so.stdout then
              [.statusWarning so.stderr] else []) ++
            [.publish (build_managed_apps_candidates up insd)])) := by
  by_cases hu : uo.code ≠ 0
  · refine ⟨_, ?_, Or.inl ⟨hu, rfl⟩⟩
    rw [refresh_manage_apps_list, if_pos hu]
  · rw [not_not] at hu
    by_cases hs : so.code ≠ 0
    · refine ⟨_, ?_, Or.inr (Or.inl ⟨hu, hs, rfl⟩)⟩
      simp [refresh_manage_apps_list, hu, hs]
    · rw [not_not] at hs
      rcases hup : parse_scoop_updates_info so.stdout with _ | up
      · have := parse_scoop_updates_info_total so.stdout
        rw [hup] at this
        simp at this
      · by_cases hl : lo.code ≠ 0
        · refine ⟨_, ?_, Or.inr (Or.inr (Or.inl ⟨hu, hs, hl, rfl⟩))⟩
          simp [refresh_manage_apps_list, hu, hs, hup, hl]
        · rw [not_not] at hl
          rcases hins : parse_scoop_list_apps lo.stdout with _ | insd
          · have := parse_scoop_list_apps_total lo.stdout
            rw [hins] at this
            simp at this
          · refine ⟨_, ?_, Or.inr (Or.inr (Or.inr
              ⟨hu, hs, hl, up, insd, rfl, rfl, rfl⟩))⟩
            simp [refresh_manage_apps_list, hu, hs, hup, hins, hl]

/-- C1 counterexample: with a non-empty previously published inventory and
a failing metadata-refresh command, the caller-visible inventory is
cleared at the start of the run and ends empty — the previously published
inventory does not remain unchanged on a pipeline error. -/
theorem refresh_atomic_C1_counterexample :
    refresh_manage_apps_list ⟨some [], [], 1⟩ ⟨some [], [], 0⟩ ⟨some [], [], 0⟩ =
      some [RefreshEvent.clearList,
        RefreshEvent.metadataError (str "Unknown error during 'scoop update'."),
        RefreshEvent.clearList] ∧
    publishedTrace
        [⟨str "a", str "a", str "1", str "2", str "t", true, false, str "m"⟩]
        [RefreshEvent.clearList,
         RefreshEvent.metadataError (str "Unknown error during 'scoop update'."),
         RefreshEvent.clearList] =
      [[⟨str "a", str "a", str "1", str "2", str "t", true, false, str "m"⟩],
       [], []] ∧
    ([⟨str "a", str "a", str "1", str "2", str "t", true, false, str "m"⟩] :
      List ManagedApp) ≠ [] := by
  decide

/-- C1 (amended): every refresh run first clears the caller-visible
inventory (so the previous inventory does not remain visible until step 4);
on any pipeline error (metadata-refresh, status, or list failure) the
published inventory ends empty rather than restored; when all three
commands succeed, the reconciled inventory is published in one wholesale
assignment, the trace of published values being exactly
`[previous, [], reconciled]`; and no partial inventory is ever published:
every published value after the initial clear is either empty or the final
one. -/
theorem refresh_atomic_C1 (prev : List ManagedApp) (uo so lo : CmdOutcome)
    (evs : List RefreshEvent)
    (h : refresh_manage_apps_list uo so lo = some evs) :
    (publishedTrace prev evs).head? = some prev ∧
    (publishedTrace prev evs).get? 1 = some [] ∧
    ((uo.code ≠ 0 ∨ so.code ≠ 0 ∨ lo.code ≠ 0) →
      (publishedTrace prev evs).getLast? = some []) ∧
    (uo.code = 0 → so.code = 0 → lo.code = 0 →
      ∃ up insd, parse_scoop_updates_info so.stdout = some up ∧
        parse_scoop_list_apps lo.stdout = some insd ∧
        publishedTrace prev evs =
          [prev, [], build_managed_apps_candidates up insd]) ∧
    (∀ inv ∈ (publishedTrace prev evs).tail,
      inv = [] ∨ (publishedTrace prev evs).getLast? = some inv) := by
  obtain ⟨evs', heq, hdisj⟩ := refresh_shape uo so lo
  rw [heq] at h
  injection h with h
  subst h
  rcases hdisj with ⟨hc, hevs⟩ | ⟨hc1, hc2, hevs⟩ |
    ⟨hc1, hc2, hc3, hevs⟩ | ⟨hc1, hc2, hc3, up, insd, hup, hins, hevs⟩
  · subst hevs
    refine ⟨rfl, rfl, fun _ => rfl, fun h1 _ _ => absurd h1 hc, ?_⟩
    intro inv hinv
    left
    have hinv2 : inv ∈ [([] : List ManagedApp), []] := hinv
    simpa using hinv2
  · subst hevs
    refine ⟨rfl, rfl, fun _ => rfl, fun _ h2 _ => absurd h2 hc2, ?_⟩
    intro inv hinv
    left
    have hinv2 : inv ∈ [([] : List ManagedApp), []] := hinv
    simpa using hinv2
  · by_cases hw : (so.stderr ≠ [] && optFalsy so.stdout) = true
    · rw [if_pos hw] at hevs
      subst hevs
      refine ⟨rfl, rfl, fun _ => rfl, fun _ _ h3 => absurd h3 hc3, ?_⟩
      intro inv hinv
      left
      have hinv2 : inv ∈ [([] : List ManagedApp), []] := hinv
      simpa using hinv2
    · rw [if_neg hw] at hevs
      subst hevs
      refine ⟨rfl, rfl, fun _ => rfl, fun _ _ h3 => absurd h3 hc3, ?_⟩
      intro inv hinv
      left
      have hinv2 : inv ∈ [([] : List ManagedApp), []] := hinv
      simpa using hinv2
  · by_cases hw : (so.stderr ≠ [] && optFalsy so.stdout) = true
    · rw [if_pos hw] at hevs
      subst hevs
      refine ⟨rfl, rfl, ?_, fun _ _ _ => ⟨up, insd, hup, hins, rfl⟩, ?_⟩
      · intro hbad
        rcases hbad with hb | hb | hb
        · exact absurd hc1 hb
        · exact absurd hc2 hb
        · exact absurd hc3 hb
      · intro inv hinv
        have hinv2 : inv ∈
            [([] : List ManagedApp), build_managed_apps_candidates up insd] :=
          hinv
        rcases List.mem_cons.mp hinv2 with hx | hx
        · left; exact hx
        · right
          simp only [List.mem_singleton] at hx
          rw [hx]
          rfl
    · rw [if_neg hw] at hevs
      subst hevs
      refine ⟨rfl, rfl, ?_, fun _ _ _ => ⟨up, insd, hup, hins, rfl⟩, ?_⟩
      · intro hbad
        rcases hbad with hb | hb | hb
        · exact absurd hc1 hb
        · exact absurd hc2 hb
        · exact absurd hc3 hb
      · intro inv hinv
        have hinv2 : inv ∈
            [([] : List ManagedApp), build_managed_apps_candidates up insd] :=
          hinv
        rcases List.mem_cons.mp hinv2 with hx | hx
        · left; exact hx
        · right
          simp only [List.mem_singleton] at hx
          rw [hx]
          rfl

/-- Concrete instantiation of `refresh_atomic_C1` on a fully successful
run. -/
theorem refresh_atomic_C1_witness :
    (publishedTrace [] [RefreshEvent.clearList, RefreshEvent.publish []]).head? =
      some [] ∧
    ∃ up insd, parse_scoop_updates_info (some []) = some up ∧
      parse_scoop_list_apps (some []) = some insd ∧
      publishedTrace [] [RefreshEvent.clearList, RefreshEvent.publish []] =
        [[], [], build_managed_apps_candidates up insd] := by
  have h := refresh_atomic_C1 [] ⟨some [], [], 0⟩ ⟨some [], [], 0⟩
    ⟨some [], [], 0⟩ [RefreshEvent.clearList, RefreshEvent.publish []] (by decide)
  exact ⟨h.1, h.2.2.2.1 rfl rfl rfl⟩

/-- C4 counterexample: the status command succeeds (exit code 0) with
non-empty stderr, but because stdout is also non-empty, no warning event
is surfaced (the source shows the warning only `if status_stderr and not
status_stdout`). -/
theorem refresh_warning_C4_counterexample :
    refresh_manage_apps_list ⟨some [], [], 0⟩ ⟨some (str "x"), str "warn", 0⟩
        ⟨some [], [], 0⟩ =
      some [RefreshEvent.clearList, RefreshEvent.publish []] ∧
    RefreshEvent.statusWarning (str "warn") ∉
      [RefreshEvent.clearList, RefreshEvent.publish []] ∧
    str "warn" ≠ [] := by
  decide

/-- C4 (amended): in a run where the metadata and status commands succeed,
the stderr of the status command is surfaced as a non-fatal warning
exactly when it is non-empty AND the status stdout is empty or absent
(Python truthiness `status_stderr and not status_stdout`); in every such
run the pipeline continues past the status step without aborting: an
inventory is published precisely when the list command also succeeds, and
a success-with-stderr status never aborts the run. -/
theorem refresh_warning_C4 (uo so lo : CmdOutcome) (evs : List RefreshEvent)
    (h : refresh_manage_apps_list uo so lo = some evs)
    (hu : uo.code = 0) (hs : so.code = 0) :
    ((RefreshEvent.statusWarning so.stderr ∈ evs) ↔
      (so.stderr ≠ [] && optFalsy so.stdout) = true) ∧
    ((∃ inv, RefreshEvent.publish inv ∈ evs) ↔ lo.code = 0) := by
  obtain ⟨evs', heq, hdisj⟩ := refresh_shape uo so lo
  rw [heq] at h
  injection h with h
  subst h
  rcases hdisj with ⟨hc, _⟩ | ⟨_, hc2, _⟩ |
    ⟨_, _, hc3, hevs⟩ | ⟨_, _, hc3, up, insd, _, _, hevs⟩
  · exact absurd hu hc
  · exact absurd hs hc2
  · by_cases hw : (so.stderr ≠ [] && optFalsy so.stdout) = true
    · rw [if_pos hw] at hevs
      subst hevs
      constructor
      · exact ⟨fun _ => hw, fun _ => by simp⟩
      · constructor
        · intro ⟨inv, hinv⟩
          simp at hinv
        · intro h0
          exact absurd h0 hc3
    · rw [if_neg hw] at hevs
      subst hevs
      constructor
      · constructor
        · intro hmem
          simp at hmem
        · intro hcond
          exact absurd hcond hw
      · constructor
        · intro ⟨inv, hinv⟩
          simp at hinv
        · intro h0
          exact absurd h0 hc3
  · by_cases hw : (so.stderr ≠ [] && optFalsy so.stdout) = true
    · rw [if_pos hw] at hevs
      subst hevs
      constructor
      · exact ⟨fun _ => hw, fun _ => by simp⟩
      · exact ⟨fun _ => hc3,
          fun _ => ⟨build_managed_apps_candidates up insd, by simp⟩⟩
    · rw [if_neg hw] at hevs
      subst hevs
      constructor
      · constructor
        · intro hmem
          simp at hmem
        · intro hcond
          exact absurd hcond hw
      · exact ⟨fun _ => hc3,
          fun _ => ⟨build_managed_apps_candidates up insd, by simp⟩⟩

/-- Concrete instantiation of `refresh_warning_C4`: with empty status
stdout and non-empty stderr the warning is surfaced and the run still
publishes. -/
theorem refresh_warning_C4_witness :
    ((RefreshEvent.statusWarning (str "w") ∈
        [RefreshEvent.clearList, RefreshEvent.statusWarning (str "w"),
         RefreshEvent.publish []]) ↔
      (str "w" ≠ [] && optFalsy (some [])) = true) ∧
    ((∃ inv, RefreshEvent.publish inv ∈
        [RefreshEvent.clearList, RefreshEvent.statusWarning (str "w"),
         RefreshEvent.publish []]) ↔ (0 : Int) = 0) :=
  refresh_warning_C4 ⟨some [], [], 0⟩ ⟨some [], str "w", 0⟩ ⟨some [], [], 0⟩
    [RefreshEvent.clearList, RefreshEvent.statusWarning (str "w"),
     RefreshEvent.publish []] (by decide) rfl rfl

end ScoopUI
